import Mathlib

/-!
# HyperChem website: hash router and form submission

A shallow embedding of the two source files of the site,
`src/App.js` (namespace `AppJs`) and `src/HyperChem_ProV6.jsx` (namespace `ProV6`).

JavaScript strings are embedded as Lean strings; the string primitives the source uses
(`String.prototype.replace` with a string pattern, `||` on strings, `Array.prototype.includes`,
property lookup in an object literal) are embedded once, in namespace `JS`, and shared by
both files.
-/

namespace HyperChem

/-! ## JavaScript primitives used by the source -/

namespace JS

/-- JS `s.replace(c, "")` for a one-character string pattern `c`: only the FIRST occurrence of
the pattern is removed, wherever it stands in `s`; a string without it is returned unchanged. -/
def replaceFirst (c : Char) (s : String) : String := ⟨s.data.erase c⟩

/-- JS `a || b` on strings: the empty string is the only falsy string. -/
def or (a b : String) : String := if a = "" then b else a

/-- Property names every object literal inherits from `Object.prototype`: a lookup
`obj[key]` with one of these keys finds a value even when `obj` has no own property `key`. -/
def objectPrototypeKeys : List String :=
  ["constructor", "__defineGetter__", "__defineSetter__", "hasOwnProperty",
   "__lookupGetter__", "__lookupSetter__", "isPrototypeOf", "propertyIsEnumerable",
   "toString", "valueOf", "__proto__", "toLocaleString"]

/-- Result of the property lookup `obj[key]` in an object literal with values in `α`. -/
inductive Lookup (α : Type) where
  | own (a : α)
  | inherited (key : String)
  | undefined
  deriving DecidableEq, Repr

/-- JS `({ k₁: v₁, …, kₙ: vₙ })[key]`: own properties first, then `Object.prototype`,
otherwise `undefined`. -/
def getProp {α : Type} (obj : List (String × α)) (key : String) : Lookup α :=
  match obj.lookup key with
  | some a => .own a
  | none => if objectPrototypeKeys.contains key then .inherited key else .undefined

end JS

/-! ## Pages -/

/-- The five page components `Home`, `Products`, `Careers`, `About`, `Contact`
(five distinct function objects in both files). -/
inductive Page where
  | Home | Products | Careers | About | Contact
  deriving DecidableEq, Repr

/-- What `App` renders inside `Shell`: one of the page components, or (were the lookup to hit
an inherited `Object.prototype` member, which is truthy) a value that is no page component. -/
inductive Rendered where
  | page (p : Page)
  | nonComponent (key : String)
  deriving DecidableEq, Repr

/-- The `||` of `App`: `lookup || Home`. Page components and inherited members are truthy,
`undefined` is falsy. -/
def orHome : JS.Lookup Page → Rendered
  | .own p => .page p
  | .inherited k => .nonComponent k
  | .undefined => .page .Home

/-! ## `src/App.js` -/

namespace AppJs

/-- App.js line 6: `const routes = ["/", "/products", "/careers", "/about", "/contact"]`. -/
def routes : List String := ["/", "/products", "/careers", "/about", "/contact"]

/-- App.js lines 7-15: `useHashRoute`, as a function of the current `window.location.hash`.
The state `path` is `hash.replace("#", "") || "/"` (set at mount and again on every
`hashchange`); the hook returns `routes.includes(path) ? path : "/"`. -/
def useHashRoute (hash : String) : String :=
  let path := JS.or (JS.replaceFirst '#' hash) "/"
  if routes.contains path then path else "/"

/-- App.js line 16-18: the `href` built by `Link`, a `#` followed by its `to` prop. -/
def Link (dst : String) : String := "#" ++ dst

/-- App.js lines 444-450: the object literal of `App`, path to page component. -/
def pageTable : List (String × Page) :=
  [("/", .Home), ("/products", .Products), ("/careers", .Careers),
   ("/about", .About), ("/contact", .Contact)]

/-- App.js lines 444-450: the memoised `Page`, `({ … })[path] || Home`. -/
def App.Page (path : String) : Rendered := orHome (JS.getProp pageTable path)

/-- App.js lines 441-450: the page `App` renders when the location hash is `hash`. -/
def App (hash : String) : Rendered := App.Page (useHashRoute hash)

end AppJs

/-! ## `src/HyperChem_ProV6.jsx` -/

namespace ProV6

/-- HyperChem_ProV6.jsx line 26: `const ROUTES = [...]`. -/
def ROUTES : List String := ["/", "/products", "/careers", "/about", "/contact"]

/-- HyperChem_ProV6.jsx lines 27-35: `useHashRoute`, as a function of the current
`window.location.hash`. -/
def useHashRoute (hash : String) : String :=
  let path := JS.or (JS.replaceFirst '#' hash) "/"
  if ROUTES.contains path then path else "/"

/-- HyperChem_ProV6.jsx lines 36-38: the `href` built by `Link`. -/
def Link (dst : String) : String := "#" ++ dst

/-- HyperChem_ProV6.jsx lines 410-416: the object literal of `App`. -/
def pageTable : List (String × Page) :=
  [("/", .Home), ("/products", .Products), ("/careers", .Careers),
   ("/about", .About), ("/contact", .Contact)]

/-- HyperChem_ProV6.jsx lines 410-416: the memoised `Page`, `({ … })[path] || Home`. -/
def App.Page (path : String) : Rendered := orHome (JS.getProp pageTable path)

/-- HyperChem_ProV6.jsx lines 408-416: the page `App` renders for a location hash. -/
def App (hash : String) : Rendered := App.Page (useHashRoute hash)

end ProV6

/-! ## The specification's reading of route resolution -/

/-- The five declared paths of the specification (§6, navigation surface). -/
def declaredPaths : List String := ["/", "/products", "/careers", "/about", "/contact"]

/-- The specification's wording of the normalisation: `s` with a LEADING `#` stripped
(a `#` elsewhere in `s` is left in place). -/
def stripLeadingHash (s : String) : String :=
  match s.data with
  | '#' :: rest => ⟨rest⟩
  | _ => s

/-- The specification's wording of `RouteTable.resolve`: strip a leading fragment marker; the
result if it is a declared path, `"/"` otherwise. -/
def specResolve (s : String) : String :=
  if stripLeadingHash s ∈ declaredPaths then stripLeadingHash s else "/"

/-! ## JavaScript and HTML primitives used by the forms -/

namespace JS

/-- The characters matched by `\s` in a JS regular expression: the WhiteSpace and
LineTerminator code points of ECMAScript (TAB, LF, VT, FF, CR, SPACE, NBSP, U+1680,
U+2000 to U+200A, LS, PS, U+202F, U+205F, U+3000, U+FEFF). -/
def isWhiteSpace (c : Char) : Bool :=
  let n := c.toNat
  n = 9 || n = 10 || n = 11 || n = 12 || n = 13 || n = 32 || n = 160 || n = 5760 ||
  (8192 ≤ n && n ≤ 8202) || n = 8232 || n = 8233 || n = 8239 || n = 8287 || n = 12288 ||
  n = 65279

/-- Scanner for `replace(/\s+/g, "_")`: `inRun` tells that the previous character was
whitespace, so the current maximal run has already been replaced by its one `_`. -/
def replaceWsAux : Bool → List Char → List Char
  | _, [] => []
  | inRun, c :: cs =>
    if isWhiteSpace c then
      if inRun then replaceWsAux true cs else '_' :: replaceWsAux true cs
    else c :: replaceWsAux false cs

/-- JS `s.replace(/\s+/g, "_")`: every maximal run of whitespace (the match of the greedy
`\s+`) is replaced by one underscore; all other characters are kept. -/
def replaceWs (s : String) : String := ⟨replaceWsAux false s.data⟩

/-- The values held by the properties of the careers payload: strings, `null`, and the
`File` object of the resume input (of which only `name` is ever read). -/
inductive Value where
  | null
  | str (s : String)
  | file (name : String)
  deriving DecidableEq, Repr

/-- One character of `QuoteJSONString`: the seven two-character escapes, `\u00XX` for the
other control characters below U+0020, the character itself otherwise. -/
def quoteChar (c : Char) : List Char :=
  let n := c.toNat
  let bs := Char.ofNat 92
  if n = 8 then [bs, 'b']
  else if n = 9 then [bs, 't']
  else if n = 10 then [bs, 'n']
  else if n = 12 then [bs, 'f']
  else if n = 13 then [bs, 'r']
  else if n = 34 then [bs, Char.ofNat 34]
  else if n = 92 then [bs, bs]
  else if n < 32 then [bs, 'u', '0', '0', Nat.digitChar (n / 16), Nat.digitChar (n % 16)]
  else [c]

/-- ECMAScript `QuoteJSONString`. -/
def quote (s : String) : String :=
  ⟨Char.ofNat 34 :: (s.data.flatMap quoteChar ++ [Char.ofNat 34])⟩

/-- `JSON.stringify` of a property value: a `File` has no own enumerable property and
serialises as the empty object. -/
def stringifyValue : Value → String
  | .null => "null"
  | .str s => quote s
  | .file _ => "\x7b\x7d"

/-- `JSON.stringify(obj)` for an object whose property values are `Value`s. -/
def stringify (obj : List (String × Value)) : String :=
  if obj.isEmpty then "\x7b\x7d"
  else "\x7b" ++ ",".intercalate (obj.map fun kv => quote kv.1 ++ ":" ++ stringifyValue kv.2)
    ++ "\x7d"

/-- `JSON.stringify(obj, null, 2)`: one property per line, indented by two spaces. -/
def stringifyIndent2 (obj : List (String × Value)) : String :=
  if obj.isEmpty then "\x7b\x7d"
  else "\x7b\n" ++
    ",\n".intercalate (obj.map fun kv => "  " ++ quote kv.1 ++ ": " ++ stringifyValue kv.2)
    ++ "\n\x7d"

/-- `localStorage.setItem(key, value)`: the entry of `key` is created or overwritten.
(Storage is taken to have room: the quota error of a full storage is not modelled.) -/
def setItem (store : List (String × String)) (key value : String) : List (String × String) :=
  (key, value) :: store.filter fun e => e.1 != key

end JS

namespace Html

/-- Value sanitisation of a single-line `<input>`: CR and LF are stripped. -/
def stripNewlines (v : List Char) : List Char :=
  v.filter fun c => c.toNat != 10 && c.toNat != 13

/-- ASCII whitespace of the HTML standard: TAB, LF, FF, CR, SPACE. -/
def isAsciiWhitespace (c : Char) : Bool :=
  c.toNat = 9 || c.toNat = 10 || c.toNat = 12 || c.toNat = 13 || c.toNat = 32

/-- The value an `<input type=…>` holds when React sets it to `v`: newlines are stripped,
and for `type="email"` leading and trailing ASCII whitespace as well. -/
def inputValue (type : String) (v : String) : String :=
  if type = "email" then
    ⟨(((stripNewlines v.data).dropWhile isAsciiWhitespace).reverse.dropWhile
      isAsciiWhitespace).reverse⟩
  else ⟨stripNewlines v.data⟩

/-- Characters allowed before the `@` of a valid e-mail address (HTML standard:
`atext` of RFC 5322, or a dot). -/
def isEmailLocalChar (c : Char) : Bool :=
  c.isAlphanum || ".!#$%&\x27*+/=?^_\x60\x7b|\x7d~-".data.contains c

/-- Split at every occurrence of `sep` (the pieces may be empty). -/
def splitAt (sep : Char) : List Char → List (List Char)
  | [] => [[]]
  | c :: cs =>
    if c = sep then [] :: splitAt sep cs
    else
      match splitAt sep cs with
      | [] => [[c]]
      | g :: gs => (c :: g) :: gs

/-- A domain label of a valid e-mail address: 1 to 63 ASCII letters, digits or hyphens,
neither starting nor ending with a hyphen. -/
def validLabel (l : List Char) : Bool :=
  !l.isEmpty && l.length ≤ 63 && l.all (fun c => c.isAlphanum || c = '-') &&
  l.head?.any Char.isAlphanum && l.getLast?.any Char.isAlphanum

/-- Valid e-mail address of the HTML standard, the check behind `typeMismatch` of
`<input type="email">`: a non-empty local part, `@`, and dot-separated domain labels. -/
def validEmail (v : String) : Bool :=
  let loc := v.data.takeWhile (· != '@')
  match v.data.dropWhile (· != '@') with
  | [] => false
  | _ :: domain => !loc.isEmpty && loc.all isEmailLocalChar && (splitAt '.' domain).all validLabel

end Html

/-! ## The careers form (shared by both files) -/

/-- The `File` chosen in the resume input; the source only reads its `name`. -/
structure File where
  name : String
  deriving DecidableEq, Repr

/-- The state `form` of `Careers` (App.js line 276, HyperChem_ProV6.jsx line 295). -/
structure Form where
  name : String
  email : String
  phone : String
  location : String
  role : String
  experience : String
  resume : Option File
  message : String
  deriving DecidableEq, Repr

/-- The controls of the careers `<form>`, named after the form field each one is bound to. -/
inductive Field where
  | name | email | phone | location | role | experience | resume | message
  deriving DecidableEq, Repr

/-- What the browser's constraint validation reads of a control: its `type`, its `required`
attribute and its current value. -/
structure Control where
  field : Field
  type : String
  required : Bool
  value : String
  deriving DecidableEq, Repr

/-- The browser-side state touched by a careers submission, with the component's
`submitted` flag: the entries of `localStorage`, and the downloads triggered by `a.click()`
as pairs of the `download` file name and the blob text. -/
structure Env where
  localStorage : List (String × String)
  downloads : List (String × String)
  submitted : Bool
  deriving DecidableEq, Repr

/-- Outcome of a submission attempt: the controls that failed constraint validation (when
there is one, the `submit` event is not fired and `onSubmit` does not run) and the
resulting state. -/
structure SubmitResult where
  invalid : List Field
  env : Env
  deriving DecidableEq, Repr

namespace Html

/-- Constraint validation of one control: `valueMissing` (a `required` control whose value
is empty) or `typeMismatch` (a non-empty `type="email"` value that is no valid address). -/
def Control.invalid (c : Control) : Bool :=
  (c.required && c.value = "") ||
  (c.type = "email" && c.value != "" && !validEmail c.value)

/-- Form submission from the submit button of a `<form onSubmit=…>` without `noValidate`:
the constraints are validated first; the handler runs only when no control is invalid. -/
def submit (controls : List Control) (handler : Env → Env) (env : Env) : SubmitResult :=
  match (controls.filter Control.invalid).map Control.field with
  | [] => ⟨[], handler env⟩
  | bad => ⟨bad, env⟩

end Html

namespace Careers

/-- The `roles` array of `Careers` (key and label), identical in both files. -/
def roles : List (String × String) :=
  [("chemical_engineer", "Chemical Engineer"), ("qc_chemist", "QC Chemist"),
   ("plant_supervisor", "Plant Supervisor"), ("safety_officer", "Safety Officer"),
   ("operator", "Operator"), ("helper", "Helper"), ("maintenance_staff", "Maintenance Staff")]

/-- The initial `form` state: `role` is `roles[0].key`. -/
def initialForm : Form :=
  ⟨"", "", "", "", "chemical_engineer", "0-2", none, ""⟩

/-- `form.resume?.name || null`: `null` without a resume, and also for an empty file name. -/
def resumeName (form : Form) : JS.Value :=
  match form.resume with
  | none => .null
  | some f => if f.name = "" then .null else .str f.name

/-- The object `{ ...form, resumeName: form.resume?.name || null }`, properties in
insertion order. -/
def payload (form : Form) : List (String × JS.Value) :=
  [("name", .str form.name), ("email", .str form.email), ("phone", .str form.phone),
   ("location", .str form.location), ("role", .str form.role),
   ("experience", .str form.experience),
   ("resume", match form.resume with | none => .null | some f => .file f.name),
   ("message", .str form.message), ("resumeName", resumeName form)]

/-- The storage key, the template `hyperchem-career-${Date.now()}` at timestamp `now`. -/
def storageKey (now : Nat) : String := "hyperchem-career-" ++ toString now

/-- The controls rendered inside the careers `<form>` (App.js lines 318-338,
HyperChem_ProV6.jsx lines 329-343): Full Name, Email (`type="email"`) and Phone carry
`required`; Location, the two selects, the file input and the textarea do not. -/
def controls (form : Form) : List Control :=
  [⟨.name, "text", true, Html.inputValue "text" form.name⟩,
   ⟨.email, "email", true, Html.inputValue "email" form.email⟩,
   ⟨.phone, "text", true, Html.inputValue "text" form.phone⟩,
   ⟨.location, "text", false, Html.inputValue "text" form.location⟩,
   ⟨.role, "select-one", false, form.role⟩,
   ⟨.experience, "select-one", false, form.experience⟩,
   ⟨.resume, "file", false, (form.resume.map File.name).getD ""⟩,
   ⟨.message, "textarea", false, form.message⟩]

end Careers

namespace AppJs

/-- App.js line 292, the expression inside the template:
`form.name.replace(/\s+/g,'_') || 'candidate'`. -/
def Careers.downloadStem (name : String) : String := JS.or (JS.replaceWs name) "candidate"

/-- App.js line 292: the `download` attribute,
`application_${form.name.replace(/\s+/g,'_') || 'candidate'}.json`. -/
def Careers.downloadName (name : String) : String :=
  "application_" ++ Careers.downloadStem name ++ ".json"

/-- App.js lines 283-296: `onSubmit`, run at timestamp `now` on the state `form`: the payload
is stored under the timestamp key, downloaded pretty-printed, and `submitted` is set. -/
def Careers.onSubmit (now : Nat) (form : Form) (env : Env) : Env :=
  let payload := HyperChem.Careers.payload form
  { localStorage :=
      JS.setItem env.localStorage (HyperChem.Careers.storageKey now) (JS.stringify payload)
    downloads := env.downloads ++ [(Careers.downloadName form.name, JS.stringifyIndent2 payload)]
    submitted := true }

/-- App.js line 317: pressing Submit in `<form onSubmit={onSubmit}>`. -/
def Careers.submit (now : Nat) (form : Form) (env : Env) : SubmitResult :=
  Html.submit (HyperChem.Careers.controls form) (Careers.onSubmit now form) env

end AppJs

namespace ProV6

/-- HyperChem_ProV6.jsx line 306, the expression inside the template:
`(form.name || "candidate").replace(/\s+/g, '_')`. -/
def Careers.downloadStem (name : String) : String := JS.replaceWs (JS.or name "candidate")

/-- HyperChem_ProV6.jsx line 306: the `download` attribute,
`application_${(form.name || "candidate").replace(/\s+/g, '_')}.json`. -/
def Careers.downloadName (name : String) : String :=
  "application_" ++ Careers.downloadStem name ++ ".json"

/-- HyperChem_ProV6.jsx lines 298-309: `onSubmit`, run at timestamp `now` on `form`. -/
def Careers.onSubmit (now : Nat) (form : Form) (env : Env) : Env :=
  let payload := HyperChem.Careers.payload form
  { localStorage :=
      JS.setItem env.localStorage (HyperChem.Careers.storageKey now) (JS.stringify payload)
    downloads := env.downloads ++ [(Careers.downloadName form.name, JS.stringifyIndent2 payload)]
    submitted := true }

/-- HyperChem_ProV6.jsx line 328: pressing Submit in `<form onSubmit={onSubmit}>`. -/
def Careers.submit (now : Nat) (form : Form) (env : Env) : SubmitResult :=
  Html.submit (HyperChem.Careers.controls form) (Careers.onSubmit now form) env

end ProV6

/-! ## Editing the careers form (shared by both files) -/

namespace Careers

/-- The option values of the Experience select (App.js line 331, HyperChem_ProV6.jsx
line 334): `['0-2','3-5','6-10','10+']`. -/
def experienceBands : List String := ["0-2", "3-5", "6-10", "10+"]

/-- One edit of the form state through a control: the `onChange` of a text input, of a
select, of the textarea, or `onFile` of the resume input (`e.target.files?.[0] || null`). -/
inductive Edit where
  | name (v : String)
  | email (v : String)
  | phone (v : String)
  | location (v : String)
  | role (v : String)
  | experience (v : String)
  | resume (f : Option File)
  | message (v : String)
  deriving DecidableEq, Repr

/-- The form field an edit writes. -/
def Edit.field : Edit → Field
  | .name _ => .name
  | .email _ => .email
  | .phone _ => .phone
  | .location _ => .location
  | .role _ => .role
  | .experience _ => .experience
  | .resume _ => .resume
  | .message _ => .message

/-- The state update of an edit: `setForm({ ...form, field: v })`, and for the file input
`setForm(prev => ({ ...prev, resume: f || null }))`. -/
def Edit.apply (form : Form) : Edit → Form
  | .name v => { form with name := v }
  | .email v => { form with email := v }
  | .phone v => { form with phone := v }
  | .location v => { form with location := v }
  | .role v => { form with role := v }
  | .experience v => { form with experience := v }
  | .resume f => { form with resume := f }
  | .message v => { form with message := v }

/-- The edits the rendered controls can produce: a `<select>` reports the value of one of
its `<option>`s, which are the role keys and the experience bands; text and file edits are
unconstrained. -/
def Edit.reachable : Edit → Bool
  | .role v => (roles.map Prod.fst).contains v
  | .experience v => experienceBands.contains v
  | _ => true

/-- The value a form field holds, as a JS value. -/
def fieldValue (form : Form) : Field → JS.Value
  | .name => .str form.name
  | .email => .str form.email
  | .phone => .str form.phone
  | .location => .str form.location
  | .role => .str form.role
  | .experience => .str form.experience
  | .resume => match form.resume with | none => .null | some f => .file f.name
  | .message => .str form.message

/-- The form holds a declared role and a declared experience band. -/
def Declared (form : Form) : Prop :=
  form.role ∈ roles.map Prod.fst ∧ form.experience ∈ experienceBands

end Careers

/-- The payload property that carries a form field. -/
def Careers.fieldKey : Field → String
  | .name => "name"
  | .email => "email"
  | .phone => "phone"
  | .location => "location"
  | .role => "role"
  | .experience => "experience"
  | .resume => "resume"
  | .message => "message"

/-! ## The mounted `App`: hash changes and the scroll effect -/

/-- State of a mounted `App`: the `path` state of `useHashRoute` and the number of
`window.scrollTo` calls made so far by the effect. -/
structure AppState where
  path : String
  scrolls : Nat
  deriving DecidableEq, Repr

namespace AppJs

/-- App.js line 15: the value `useHashRoute` returns in a given state, the dependency
`[path]` of the scroll effect. -/
def App.resolved (st : AppState) : String :=
  if routes.contains st.path then st.path else "/"

/-- The page shown in a given state. -/
def App.shown (st : AppState) : Rendered := App.Page (App.resolved st)

/-- Mounting `App` when the location hash is `hash`: the state is initialised from the
hash (line 8) and the effect of line 452 runs once after the first render. -/
def App.mount (hash : String) : AppState :=
  ⟨JS.or (JS.replaceFirst '#' hash) "/", 1⟩

/-- One `hashchange` event handled by `onHash` (line 10) when the location hash is `hash`:
`setPath` with an unchanged value causes no update; otherwise `App` renders again and the
effect `useEffect(…, [path])` runs only if the resolved path differs from the one of the
previous render. -/
def App.onHash (st : AppState) (hash : String) : AppState :=
  let newPath := JS.or (JS.replaceFirst '#' hash) "/"
  if newPath = st.path then st
  else if App.resolved ⟨newPath, st.scrolls⟩ = App.resolved st then ⟨newPath, st.scrolls⟩
  else ⟨newPath, st.scrolls + 1⟩

end AppJs

namespace ProV6

/-- HyperChem_ProV6.jsx line 35: the value `useHashRoute` returns in a given state. -/
def App.resolved (st : AppState) : String :=
  if ROUTES.contains st.path then st.path else "/"

/-- The page shown in a given state. -/
def App.shown (st : AppState) : Rendered := App.Page (App.resolved st)

/-- Mounting `App` when the location hash is `hash` (lines 28 and 418). -/
def App.mount (hash : String) : AppState :=
  ⟨JS.or (JS.replaceFirst '#' hash) "/", 1⟩

/-- One `hashchange` event handled by `onHash` (line 30) when the location hash is `hash`,
with the effect `useEffect(…, [path])` of line 418. -/
def App.onHash (st : AppState) (hash : String) : AppState :=
  let newPath := JS.or (JS.replaceFirst '#' hash) "/"
  if newPath = st.path then st
  else if App.resolved ⟨newPath, st.scrolls⟩ = App.resolved st then ⟨newPath, st.scrolls⟩
  else ⟨newPath, st.scrolls + 1⟩

end ProV6

/-- Number of events in `hashes` whose page differs from the page shown just before the
event, when the page shown for a hash is `page` and the hash before the first event
is `prev`. -/
def pageChanges (page : String → Rendered) : String → List String → Nat
  | _, [] => 0
  | prev, h :: hs => (if page h = page prev then 0 else 1) + pageChanges page h hs

/-- Value of a list of decimal digit characters, most significant first. -/
def decimalValue : List Char → Nat
  | [] => 0
  | d :: ds => (d.toNat - 48) * 10 ^ ds.length + decimalValue ds

/-! ## Reading a snapshot back: `JSON.parse` -/

namespace JS

/-- The property values of the objects `JSON.parse` returns on the texts considered here:
`null`, a string, or an object without properties. -/
inductive Parsed where
  | null
  | str (s : String)
  | emptyObject
  deriving DecidableEq, Repr

/-- What `JSON.parse` reads back for a value written by `JSON.stringify`. -/
def Value.parsed : Value → Parsed
  | .null => .null
  | .str s => .str s
  | .file _ => .emptyObject

/-- JSON whitespace: space, TAB, LF, CR. -/
def isJsonWs (c : Char) : Bool :=
  c.toNat = 32 || c.toNat = 9 || c.toNat = 10 || c.toNat = 13

/-- Skip JSON whitespace. -/
def skipWs (l : List Char) : List Char := l.dropWhile isJsonWs

/-- Value of a hexadecimal digit, in either case. -/
def hexValue (c : Char) : Option Nat :=
  let n := c.toNat
  if 48 ≤ n ∧ n ≤ 57 then some (n - 48)
  else if 97 ≤ n ∧ n ≤ 102 then some (n - 87)
  else if 65 ≤ n ∧ n ≤ 70 then some (n - 55)
  else none

/-- The character denoted by a one-letter JSON escape (the letter after the backslash). -/
def unescape (e : Char) : Option Char :=
  let n := e.toNat
  if n = 34 then some (Char.ofNat 34)
  else if n = 92 then some (Char.ofNat 92)
  else if n = 47 then some (Char.ofNat 47)
  else if n = 98 then some (Char.ofNat 8)
  else if n = 102 then some (Char.ofNat 12)
  else if n = 110 then some (Char.ofNat 10)
  else if n = 114 then some (Char.ofNat 13)
  else if n = 116 then some (Char.ofNat 9)
  else none

/-- Where the reader of a JSON string stands: between characters, just after a backslash,
or inside a `\u` escape with `remaining` more hexadecimal digits to read after the next one
and `acc` the value of the digits read so far. -/
inductive StringState where
  | normal
  | escape
  | hex (remaining : Nat) (acc : Nat)
  deriving DecidableEq, Repr

/-- A JSON string after its opening quote, read one character at a time: the decoded
characters and the text that follows the closing quote. Raw control characters and
malformed escapes are syntax errors (`none`); so are `\u` escapes of surrogate code units,
which no string of this embedding contains. -/
def parseStringAux : StringState → List Char → Option (List Char × List Char)
  | _, [] => none
  | .normal, c :: cs =>
    if c.toNat = 34 then some ([], cs)
    else if c.toNat = 92 then parseStringAux .escape cs
    else if c.toNat < 32 then none
    else (parseStringAux .normal cs).map fun r => (c :: r.1, r.2)
  | .escape, e :: cs =>
    if e.toNat = 117 then parseStringAux (.hex 3 0) cs
    else
      match unescape e with
      | none => none
      | some ch => (parseStringAux .normal cs).map fun r => (ch :: r.1, r.2)
  | .hex remaining acc, h :: cs =>
    match hexValue h with
    | none => none
    | some d =>
      match remaining with
      | 0 =>
        if 55296 ≤ acc * 16 + d ∧ acc * 16 + d ≤ 57343 then none
        else (parseStringAux .normal cs).map fun r => (Char.ofNat (acc * 16 + d) :: r.1, r.2)
      | k + 1 => parseStringAux (.hex k (acc * 16 + d)) cs

/-- A JSON string after its opening quote. -/
def parseStringBody (l : List Char) : Option (List Char × List Char) :=
  parseStringAux .normal l

/-- A property value: `null`, a string, or an object without members; any other value is
outside the texts considered here (`none`). -/
def parseValue : List Char → Option (Parsed × List Char)
  | [] => none
  | c :: cs =>
    if c.toNat = 34 then (parseStringBody cs).map fun r => (.str ⟨r.1⟩, r.2)
    else if c.toNat = 123 then
      match skipWs cs with
      | d :: rest => if d.toNat = 125 then some (.emptyObject, rest) else none
      | [] => none
    else if c.toNat = 110 then
      if cs.take 3 = ['u', 'l', 'l'] then some (.null, cs.drop 3) else none
    else none

/-- The members of an object up to and including its closing brace: `"key" : value`
separated by commas. `fuel` bounds the number of members read. -/
def parseMembers : Nat → List Char → Option (List (String × Parsed) × List Char)
  | 0, _ => none
  | fuel + 1, input =>
    match skipWs input with
    | [] => none
    | q :: afterQuote =>
      if q.toNat = 34 then
        match parseStringBody afterQuote with
        | none => none
        | some (key, afterKey) =>
          match skipWs afterKey with
          | [] => none
          | colon :: afterColon =>
            if colon.toNat = 58 then
              match parseValue (skipWs afterColon) with
              | none => none
              | some (v, afterValue) =>
                match skipWs afterValue with
                | [] => none
                | d :: rest =>
                  if d.toNat = 44 then
                    (parseMembers fuel rest).map fun r => ((⟨key⟩, v) :: r.1, r.2)
                  else if d.toNat = 125 then some ([(⟨key⟩, v)], rest)
                  else none
            else none
      else none

/-- Defining a property while an object is built by `JSON.parse`: a repeated key keeps its
place and takes the later value. -/
def setProp (obj : List (String × Parsed)) (key : String) (v : Parsed) :
    List (String × Parsed) :=
  if obj.any (fun e => e.1 == key) then obj.map fun e => if e.1 == key then (key, v) else e
  else obj ++ [(key, v)]

/-- JS `JSON.parse(text)` on the texts of objects whose property values are strings, `null`
or empty objects; `none` stands for a syntax error or a text outside this fragment. -/
def parse (text : String) : Option (List (String × Parsed)) :=
  match skipWs text.data with
  | [] => none
  | c :: rest =>
    if c.toNat = 123 then
      match skipWs rest with
      | [] => none
      | d :: afterBrace =>
        if d.toNat = 125 then (if skipWs afterBrace = [] then some [] else none)
        else
          match parseMembers text.length rest with
          | none => none
          | some (members, tail) =>
            if skipWs tail = [] then some (members.foldl (fun o kv => setProp o kv.1 kv.2) [])
            else none
    else none

end JS

/-- The comma written after a member that is followed by another one. -/
def JS.separator : List (String × JS.Value) → List Char
  | [] => []
  | _ :: _ => [Char.ofNat 44]

/-- Text of the members of a non-empty object up to and including its closing brace, with
the whitespace `pre` before every key, `mid` after every colon and `post` before the closing
brace: the common shape of `JSON.stringify(obj)` and `JSON.stringify(obj, null, 2)`. -/
def JS.membersText (pre mid post : List Char) : List (String × JS.Value) → List Char
  | [] => post ++ [Char.ofNat 125]
  | kv :: rest =>
    pre ++ (JS.quote kv.1).data ++ Char.ofNat 58 :: mid ++ (JS.stringifyValue kv.2).data ++
      JS.separator rest ++ JS.membersText pre mid post rest

/-! ## The contact form (`src/App.js` only) -/

namespace JS

/-- The UTF-8 bytes of a code point. -/
def utf8Bytes (n : Nat) : List Nat :=
  if n < 128 then [n]
  else if n < 2048 then [192 + n / 64, 128 + n % 64]
  else if n < 65536 then [224 + n / 4096, 128 + n / 64 % 64, 128 + n % 64]
  else [240 + n / 262144, 128 + n / 4096 % 64, 128 + n / 64 % 64, 128 + n % 64]

/-- The characters `encodeURIComponent` leaves as they are: ASCII letters and digits and
`- _ . ! ~ * ' ( )`. -/
def isUriUnreserved (c : Char) : Bool :=
  c.isAlphanum || "-_.!~*\x27()".data.contains c

/-- An upper-case hexadecimal digit. -/
def hexUpper (d : Nat) : Char :=
  if d < 10 then Char.ofNat (48 + d) else Char.ofNat (55 + d)

/-- The escape `%XX` of one byte. -/
def percentByte (b : Nat) : List Char := ['%', hexUpper (b / 16), hexUpper (b % 16)]

/-- JS `encodeURIComponent(s)`: every character outside the unreserved set is replaced by
the `%XX` escapes of its UTF-8 bytes. (The `URIError` thrown on a lone surrogate cannot
arise: the strings of this embedding hold none.) -/
def encodeURIComponent (s : String) : String :=
  ⟨s.data.flatMap fun c =>
    if isUriUnreserved c then [c] else (utf8Bytes c.toNat).flatMap percentByte⟩

end JS

/-- The state `c` of `Contact` (App.js line 364). -/
structure ContactMessage where
  name : String
  email : String
  phone : String
  message : String
  deriving DecidableEq, Repr

/-- Outcome of pressing Send: the controls that failed constraint validation, and the URL
assigned to `window.location.href` when the handler ran. -/
structure ContactResult where
  invalid : List Field
  href : Option String
  deriving DecidableEq, Repr

namespace AppJs

/-- App.js lines 367-371: the template literal passed to `encodeURIComponent`. -/
def Contact.bodyText (c : ContactMessage) : String :=
  "Name: " ++ c.name ++ "\nEmail: " ++ c.email ++ "\nPhone: " ++ c.phone ++ "\n\n" ++ c.message

/-- App.js lines 365-373: `submit`, the URL it assigns to `window.location.href`. -/
def Contact.submit (c : ContactMessage) : String :=
  "mailto:hello@hyperchem.example?subject=Website inquiry&body=" ++
    JS.encodeURIComponent (Contact.bodyText c)

/-- The controls rendered inside the contact `<form>` (App.js lines 390-410): Your Name,
Email (`type="email"`) and Message carry `required`, Phone does not. -/
def Contact.controls (c : ContactMessage) : List Control :=
  [⟨.name, "text", true, Html.inputValue "text" c.name⟩,
   ⟨.email, "email", true, Html.inputValue "email" c.email⟩,
   ⟨.phone, "text", false, Html.inputValue "text" c.phone⟩,
   ⟨.message, "textarea", true, c.message⟩]

/-- App.js line 390: pressing Send in `<form onSubmit={submit}>`: the constraints are
validated first and `submit` runs only when no control is invalid. -/
def Contact.send (c : ContactMessage) : ContactResult :=
  match ((Contact.controls c).filter Html.Control.invalid).map Control.field with
  | [] => ⟨[], some (Contact.submit c)⟩
  | bad => ⟨bad, none⟩

end AppJs

/-! ## Reading a `mailto:` URL (what the mail composer receives) -/

namespace Mailto

/-- How the reader of `%XX` escapes stands: between characters, after `%`, or after `%X`
with the value of the first digit. -/
inductive PctState where
  | start
  | first
  | second (hi : Nat)
  deriving DecidableEq, Repr

/-- A piece of percent-decoded text: a literal character or a byte written as `%XX`. -/
inductive Item where
  | lit (c : Char)
  | byte (b : Nat)
  deriving DecidableEq, Repr

/-- Percent-decoding, first step: the `%XX` escapes become bytes; a `%` not followed by two
hexadecimal digits is an error. -/
def items : PctState → List Char → Option (List Item)
  | .start, [] => some []
  | _, [] => none
  | .start, c :: cs =>
    if c = '%' then items .first cs else (items .start cs).map fun r => Item.lit c :: r
  | .first, h :: cs =>
    match JS.hexValue h with
    | none => none
    | some a => items (.second a) cs
  | .second a, h :: cs =>
    match JS.hexValue h with
    | none => none
    | some b => (items .start cs).map fun r => Item.byte (a * 16 + b) :: r

/-- Percent-decoding, second step: the bytes are read as UTF-8. `remaining` continuation
bytes are still expected for a code point whose bits read so far are `acc` and which must be
at least `least` (no overlong form); surrogates and values above U+10FFFF are errors. -/
def utf8 : Nat → Nat → Nat → List Item → Option (List Char)
  | 0, _, _, [] => some []
  | _ + 1, _, _, [] => none
  | 0, _, _, .lit c :: rest => (utf8 0 0 0 rest).map fun r => c :: r
  | _ + 1, _, _, .lit _ :: _ => none
  | 0, _, _, .byte b :: rest =>
    if b < 128 then (utf8 0 0 0 rest).map fun r => Char.ofNat b :: r
    else if 192 ≤ b ∧ b < 224 then utf8 1 (b - 192) 128 rest
    else if 224 ≤ b ∧ b < 240 then utf8 2 (b - 224) 2048 rest
    else if 240 ≤ b ∧ b < 248 then utf8 3 (b - 240) 65536 rest
    else none
  | k + 1, acc, least, .byte b :: rest =>
    if 128 ≤ b ∧ b < 192 then
      match k with
      | 0 =>
        if least ≤ acc * 64 + (b - 128) ∧ acc * 64 + (b - 128) < 1114112 ∧
            ¬ (55296 ≤ acc * 64 + (b - 128) ∧ acc * 64 + (b - 128) ≤ 57343) then
          (utf8 0 0 0 rest).map fun r => Char.ofNat (acc * 64 + (b - 128)) :: r
        else none
      | j + 1 => utf8 (j + 1) (acc * 64 + (b - 128)) least rest
    else none

/-- Percent-decoding of a URL component. -/
def decode (l : List Char) : Option String :=
  match items .start l with
  | none => none
  | some its => (utf8 0 0 0 its).map String.mk

/-- The message a mail composer opens. -/
structure Request where
  recipient : String
  subject : String
  body : String
  deriving DecidableEq, Repr

/-- The header fields of the query of a `mailto:` URL: `name=value` pairs separated by `&`,
each split at its first `=`. -/
def fields (query : List Char) : List (List Char × List Char) :=
  (Html.splitAt '&' query).map fun f =>
    (f.takeWhile (fun c => c != '='), (f.dropWhile (fun c => c != '=')).drop 1)

/-- Reading a `mailto:` URL (RFC 6068): the address before `?`, then the `subject` and
`body` header fields, each percent-decoded; `none` when the text is no `mailto:` URL or an
escape is malformed. -/
def read (href : String) : Option Request :=
  if "mailto:".data.isPrefixOf href.data then
    let rest := href.data.drop 7
    let query := (rest.dropWhile (fun c => c != '?')).drop 1
    match decode (rest.takeWhile (fun c => c != '?')),
      decode (((fields query).lookup "subject".data).getD []),
      decode (((fields query).lookup "body".data).getD []) with
    | some r, some s, some b => some ⟨r, s, b⟩
    | _, _, _ => none
  else none

end Mailto

/-! ## The mobile menus -/

namespace AppJs

/-- App.js lines 82-88: the array of `[to, label]` pairs mapped over by `MobileMenu`. -/
def MobileMenu.entries : List (String × String) :=
  [("/", "Home"), ("/products", "Products"), ("/careers", "Careers"), ("/about", "About"),
   ("/contact", "Contact")]

end AppJs

namespace ProV6

/-- HyperChem_ProV6.jsx line 97: the array of paths mapped over by `MobileMenu`. -/
def MobileMenu.paths : List String := ["/", "/products", "/careers", "/about", "/contact"]

/-- JS `s.replace(/^[a-z]/, (m) => m.toUpperCase())`: a first character in `a` to `z` is
replaced by its upper-case letter; any other string is returned unchanged. -/
def MobileMenu.capitalize (s : String) : String :=
  match s.data with
  | [] => s
  | c :: cs => if 97 ≤ c.toNat ∧ c.toNat ≤ 122 then ⟨Char.ofNat (c.toNat - 32) :: cs⟩ else s

/-- HyperChem_ProV6.jsx line 99: the label of a menu link,
`to === "/" ? "Home" : to.slice(1).replace(/^[a-z]/, (m) => m.toUpperCase())`.
(`slice(1)` drops the first character; were it outside the Basic Multilingual Plane, JS
would keep its second code unit, which no string of this embedding can hold.) -/
def MobileMenu.label (dst : String) : String :=
  if dst = "/" then "Home" else MobileMenu.capitalize ⟨dst.data.drop 1⟩

/-- HyperChem_ProV6.jsx lines 97-101: the links of the open menu, as pairs of `to`
and label. -/
def MobileMenu.entries : List (String × String) :=
  MobileMenu.paths.map fun dst => (dst, MobileMenu.label dst)

end ProV6

/-! ## Vocabulary for the statements on download names -/

/-- Number of maximal whitespace runs starting inside `l`; `prevWs` tells whether the
character just before `l` is whitespace (a run that began earlier is not counted again). -/
def wsRunsFrom : Bool → List Char → Nat
  | _, [] => 0
  | prevWs, c :: cs =>
    if JS.isWhiteSpace c then (if prevWs then 0 else 1) + wsRunsFrom true cs
    else wsRunsFrom false cs

/-- Number of maximal whitespace runs of a string. -/
def wsRuns (s : String) : Nat := wsRunsFrom false s.data

/-- The name made of a first word `w` followed by the pairs `(sep, word)` of `rest`, in
order: `w sep₁ word₁ sep₂ word₂ …`. -/
def spacedName (w : List Char) (rest : List (List Char × List Char)) : String :=
  ⟨w ++ rest.flatMap fun p => p.1 ++ p.2⟩

/-- The words of such a name, in order. -/
def wordsOf (w : List Char) (rest : List (List Char × List Char)) : List String :=
  ⟨w⟩ :: rest.map fun p => ⟨p.2⟩

/-- A piece of a name: a run of whitespace (`isRun`) or a word without whitespace. -/
structure Segment where
  isRun : Bool
  chars : List Char
  deriving DecidableEq, Repr

/-- A name cut, from its end, into pieces of one kind each: a character joins the piece that
follows it when both are whitespace or both are not, and starts a new piece otherwise. -/
def segmentsOf : List Char → List Segment
  | [] => []
  | c :: cs =>
    match segmentsOf cs with
    | [] => [⟨JS.isWhiteSpace c, [c]⟩]
    | seg :: rest =>
      if seg.isRun = JS.isWhiteSpace c then ⟨seg.isRun, c :: seg.chars⟩ :: rest
      else ⟨JS.isWhiteSpace c, [c]⟩ :: seg :: rest

/-- Every piece is non-empty, a run holds only whitespace and a word holds none. -/
def homogeneous (segs : List Segment) : Bool :=
  segs.all fun seg =>
    !seg.chars.isEmpty && seg.chars.all fun c => JS.isWhiteSpace c == seg.isRun

/-- Runs and words alternate: no two neighbours are of the same kind, so that every run is
a maximal run of whitespace. -/
def alternating : List Segment → Bool
  | [] => true
  | a :: rest =>
    (match rest with
      | [] => true
      | b :: _ => a.isRun != b.isRun) && alternating rest

/-- The pieces written back in order, every run replaced by one underscore and every word
kept as it is. -/
def underscored (segs : List Segment) : List Char :=
  segs.flatMap fun seg => if seg.isRun then ['_'] else seg.chars

/-- The same when the character before the first piece is whitespace (`prevWs`): a leading
run then continues a run that already has its underscore. -/
def underscoredAfter (prevWs : Bool) : List Segment → List Char
  | [] => []
  | seg :: rest => if prevWs && seg.isRun then underscored rest else underscored (seg :: rest)

/-! # Theorems -/

/-! ## Shared lemmas on the router -/

theorem ProV6.useHashRoute_eq_AppJs (hash : String) :
    ProV6.useHashRoute hash = AppJs.useHashRoute hash := rfl

theorem ProV6.App_eq_AppJs (hash : String) : ProV6.App hash = AppJs.App hash := rfl

theorem ProV6.Page_eq_AppJs (path : String) : ProV6.App.Page path = AppJs.App.Page path := rfl

theorem mem_routes_iff (p : String) :
    p ∈ AppJs.routes ↔
      p = "/" ∨ p = "/products" ∨ p = "/careers" ∨ p = "/about" ∨ p = "/contact" := by
  simp [AppJs.routes]

theorem contains_eq_true_iff (l : List String) (a : String) :
    l.contains a = true ↔ a ∈ l := by
  simp

/-- The hook only ever returns one of the five entries of `routes`. -/
theorem AppJs.useHashRoute_mem (hash : String) : AppJs.useHashRoute hash ∈ AppJs.routes := by
  unfold AppJs.useHashRoute
  by_cases h : AppJs.routes.contains (JS.or (JS.replaceFirst '#' hash) "/") = true
  · simp only [h, if_true]
    exact (contains_eq_true_iff _ _).mp h
  · rw [if_neg h]
    decide

/-- The hook in terms of the path state: the stripped hash when it is a route, else `"/"`. -/
theorem AppJs.useHashRoute_eq (hash : String) :
    AppJs.useHashRoute hash =
      if JS.replaceFirst '#' hash ∈ AppJs.routes then JS.replaceFirst '#' hash else "/" := by
  unfold AppJs.useHashRoute JS.or
  by_cases he : JS.replaceFirst '#' hash = ""
  · simp only [he, if_true]
    decide
  · simp only [he, if_false, contains_eq_true_iff]

/-- On a hash that begins with `#`, or holds no `#` at all, removing the first `#` and
stripping a leading `#` agree. -/
theorem replaceFirst_eq_stripLeadingHash (s : String)
    (h : s.data.head? = some '#' ∨ '#' ∉ s.data) :
    JS.replaceFirst '#' s = stripLeadingHash s := by
  obtain ⟨l⟩ := s
  unfold JS.replaceFirst stripLeadingHash
  cases l with
  | nil => rfl
  | cons c cs =>
    by_cases hc : c = '#'
    · subst hc
      simp
    · have hne : '#' ∉ c :: cs := by
        rcases h with h | h
        · simp at h
          exact absurd h hc
        · exact h
      have : (c :: cs).erase '#' = c :: cs := List.erase_of_not_mem hne
      simp only [this]
      split
      · rename_i rest heq
        simp at heq
        exact absurd heq.1 hc
      · rfl

/-! ## Route resolution (claims C1 to C5) -/

/-- Claim C1: for every input `s` of `useHashRoute`, that is every value of
`window.location.hash` (the empty string, or `#` followed by the fragment; the statement
covers every string that begins with `#` or holds no `#`), the path resolved in both files
is `s` without its leading `#` when that is exactly one of the five declared paths and `"/"`
otherwise; the empty string resolves to `"/"`; the function is total and its result is
always a declared path. -/
theorem C1_route_resolution (s : String) (h : s.data.head? = some '#' ∨ '#' ∉ s.data) :
    AppJs.useHashRoute s = specResolve s ∧ ProV6.useHashRoute s = specResolve s ∧
    AppJs.useHashRoute s ∈ declaredPaths ∧
    AppJs.useHashRoute "" = "/" ∧ ProV6.useHashRoute "" = "/" ∧ specResolve "" = "/" := by
  have key : AppJs.useHashRoute s = specResolve s := by
    rw [AppJs.useHashRoute_eq, replaceFirst_eq_stripLeadingHash s h]
    rfl
  exact ⟨key, key, AppJs.useHashRoute_mem s, by decide, by decide, by decide⟩

theorem C1_route_resolution_witness :
    AppJs.useHashRoute "#/careers" = specResolve "#/careers" ∧
    ProV6.useHashRoute "#/careers" = specResolve "#/careers" ∧
    AppJs.useHashRoute "#/careers" ∈ declaredPaths ∧
    AppJs.useHashRoute "" = "/" ∧ ProV6.useHashRoute "" = "/" ∧ specResolve "" = "/" :=
  C1_route_resolution "#/careers" (Or.inl (by decide))

/-- Claim C2 as stated fails: the fragment `"#/products"` is not equal to any of the five
declared paths, yet it resolves to the Products page and not to the page of `"/"`. -/
theorem C2_counterexample :
    "#/products" ∉ declaredPaths ∧
    AppJs.App "#/products" = .page .Products ∧ AppJs.App "/" = .page .Home ∧
    AppJs.App "#/products" ≠ AppJs.App "/" ∧ ProV6.App "#/products" ≠ ProV6.App "/" := by
  decide

/-- Claim C2, amended: for every string `s` whose path state (`s` with its `#` marker
removed by `replace("#", "")`) is not one of the five declared paths, the page rendered for
`s` is the page rendered for `"/"`, the Home page, in both files. -/
theorem C2_unknown_path_falls_back (s : String)
    (h : JS.replaceFirst '#' s ∉ declaredPaths) :
    AppJs.App s = AppJs.App "/" ∧ AppJs.App s = .page .Home ∧
    ProV6.App s = ProV6.App "/" ∧ ProV6.App s = .page .Home := by
  have hr : AppJs.useHashRoute s = "/" := by
    rw [AppJs.useHashRoute_eq]
    exact if_neg h
  have hA : AppJs.App s = .page .Home := by
    unfold AppJs.App
    rw [hr]
    decide
  exact ⟨hA, hA, hA, hA⟩

theorem C2_unknown_path_falls_back_witness :
    AppJs.App "#/unknown" = AppJs.App "/" ∧ AppJs.App "#/unknown" = .page .Home ∧
    ProV6.App "#/unknown" = ProV6.App "/" ∧ ProV6.App "#/unknown" = .page .Home :=
  C2_unknown_path_falls_back "#/unknown" (by decide)

/-- Claim C3: the five declared paths are pairwise distinct, and for declared paths `p` and
`q` the page `App` selects for `p` equals the page it selects for `q` only if `p = q`, both
for the table lookup on the path and for `App` on the fragment `#p`; the five pages are
Home, Products, Careers, About and Contact respectively, in both files. -/
theorem C3_declared_paths_distinct_pages (p q : String)
    (hp : p ∈ AppJs.routes) (hq : q ∈ AppJs.routes) :
    AppJs.routes.Nodup ∧ AppJs.routes.length = 5 ∧ ProV6.ROUTES = AppJs.routes ∧
    (AppJs.App.Page p = AppJs.App.Page q → p = q) ∧
    (ProV6.App.Page p = ProV6.App.Page q → p = q) ∧
    (AppJs.App ("#" ++ p) = AppJs.App ("#" ++ q) → p = q) ∧
    (ProV6.App ("#" ++ p) = ProV6.App ("#" ++ q) → p = q) ∧
    AppJs.routes.map AppJs.App.Page =
      [.page .Home, .page .Products, .page .Careers, .page .About, .page .Contact] ∧
    ProV6.ROUTES.map ProV6.App.Page =
      [.page .Home, .page .Products, .page .Careers, .page .About, .page .Contact] := by
  rw [mem_routes_iff] at hp hq
  refine ⟨by decide, by decide, rfl, ?_, ?_, ?_, ?_, by decide, by decide⟩ <;>
    rcases hp with rfl | rfl | rfl | rfl | rfl <;>
    rcases hq with rfl | rfl | rfl | rfl | rfl <;>
    decide

theorem C3_declared_paths_distinct_pages_witness :
    AppJs.routes.Nodup ∧ AppJs.routes.length = 5 ∧ ProV6.ROUTES = AppJs.routes ∧
    (AppJs.App.Page "/products" = AppJs.App.Page "/about" → "/products" = "/about") ∧
    (ProV6.App.Page "/products" = ProV6.App.Page "/about" → "/products" = "/about") ∧
    (AppJs.App ("#" ++ "/products") = AppJs.App ("#" ++ "/about") → "/products" = "/about") ∧
    (ProV6.App ("#" ++ "/products") = ProV6.App ("#" ++ "/about") → "/products" = "/about") ∧
    AppJs.routes.map AppJs.App.Page =
      [.page .Home, .page .Products, .page .Careers, .page .About, .page .Contact] ∧
    ProV6.ROUTES.map ProV6.App.Page =
      [.page .Home, .page .Products, .page .Careers, .page .About, .page .Contact] :=
  C3_declared_paths_distinct_pages "/products" "/about" (by decide) (by decide)

/-- Claim C4: the fragment `"#/products"` resolves to the Products page; the empty fragment
and the fragment `"#/unknown"` resolve to the Home page, in both files. -/
theorem C4_fragment_examples :
    AppJs.App "#/products" = .page .Products ∧ AppJs.App "" = .page .Home ∧
    AppJs.App "#/unknown" = .page .Home ∧
    ProV6.App "#/products" = .page .Products ∧ ProV6.App "" = .page .Home ∧
    ProV6.App "#/unknown" = .page .Home := by
  decide

/-- Claim C5: the page lookup of `App` is total over resolved paths: for every location hash,
the path returned by `useHashRoute` is an own key of the page table (whose keys are exactly
the routes), so the lookup finds a page component, is never `undefined`, and the `|| Home`
fallback is never taken, in both files. -/
theorem C5_page_lookup_total (hash : String) :
    AppJs.pageTable.map Prod.fst = AppJs.routes ∧
    ProV6.pageTable.map Prod.fst = ProV6.ROUTES ∧
    AppJs.useHashRoute hash ∈ AppJs.pageTable.map Prod.fst ∧
    ProV6.useHashRoute hash ∈ ProV6.pageTable.map Prod.fst ∧
    (∃ p, JS.getProp AppJs.pageTable (AppJs.useHashRoute hash) = .own p ∧
      AppJs.App hash = .page p) ∧
    (∃ p, JS.getProp ProV6.pageTable (ProV6.useHashRoute hash) = .own p ∧
      ProV6.App hash = .page p) ∧
    JS.getProp AppJs.pageTable (AppJs.useHashRoute hash) ≠ .undefined ∧
    JS.getProp ProV6.pageTable (ProV6.useHashRoute hash) ≠ .undefined := by
  have hm := AppJs.useHashRoute_mem hash
  have hex : ∃ p, JS.getProp AppJs.pageTable (AppJs.useHashRoute hash) = .own p ∧
      AppJs.App hash = .page p := by
    unfold AppJs.App
    rw [mem_routes_iff] at hm
    rcases hm with h | h | h | h | h <;> rw [h]
    · exact ⟨.Home, by decide⟩
    · exact ⟨.Products, by decide⟩
    · exact ⟨.Careers, by decide⟩
    · exact ⟨.About, by decide⟩
    · exact ⟨.Contact, by decide⟩
  have hne : JS.getProp AppJs.pageTable (AppJs.useHashRoute hash) ≠ .undefined := by
    obtain ⟨p, hp, _⟩ := hex
    rw [hp]
    exact fun h => nomatch h
  exact ⟨rfl, rfl, hm, hm, hex, hex, hne, hne⟩

/-! ## Shared lemmas on form submission -/

/-- A control that fails validation blocks the submission: the handler does not run, the
state is unchanged and the control is reported. -/
theorem Html.submit_of_invalid (controls : List Control) (handler : Env → Env) (env : Env)
    (c : Control) (hc : c ∈ controls) (hi : Html.Control.invalid c = true) :
    (Html.submit controls handler env).env = env ∧
    c.field ∈ (Html.submit controls handler env).invalid := by
  have hmem : c.field ∈ (controls.filter Html.Control.invalid).map Control.field :=
    List.mem_map.mpr ⟨c, List.mem_filter.mpr ⟨hc, hi⟩, rfl⟩
  unfold Html.submit
  split
  · rename_i heq
    rw [heq] at hmem
    exact absurd hmem (List.not_mem_nil _)
  · exact ⟨rfl, hmem⟩

/-- When every control passes validation the handler runs. -/
theorem Html.submit_of_valid (controls : List Control) (handler : Env → Env) (env : Env)
    (h : ∀ c ∈ controls, Html.Control.invalid c = false) :
    Html.submit controls handler env = ⟨[], handler env⟩ := by
  have hnil : (controls.filter Html.Control.invalid).map Control.field = [] := by
    rw [List.map_eq_nil_iff, List.filter_eq_nil_iff]
    intro c hc
    simp [h c hc]
  unfold Html.submit
  rw [hnil]

theorem Careers.name_control_mem (form : Form) :
    (⟨.name, "text", true, Html.inputValue "text" form.name⟩ : Control) ∈
      Careers.controls form := by
  simp [Careers.controls]

/-- The careers controls all pass validation exactly when the three required values are
present and the e-mail value is a valid address. -/
theorem Careers.controls_valid (form : Form)
    (hn : Html.inputValue "text" form.name ≠ "")
    (hp : Html.inputValue "text" form.phone ≠ "")
    (he : Html.validEmail (Html.inputValue "email" form.email) = true) :
    ∀ c ∈ Careers.controls form, Html.Control.invalid c = false := by
  have hne : Html.inputValue "email" form.email ≠ "" := by
    intro h0
    rw [h0] at he
    exact absurd he (by decide)
  intro c hc
  simp only [Careers.controls, List.mem_cons, List.mem_singleton, List.not_mem_nil,
    or_false] at hc
  rcases hc with rfl | rfl | rfl | rfl | rfl | rfl | rfl | rfl <;>
    simp [Html.Control.invalid, hn, hp, he, hne]

/-! ## Careers submission (claims C6 and C7) -/

/-- Claim C6: submitting the careers form with `name = ""` is rejected by the validation of
the `required` Full Name input: `name` is listed among the invalid fields, `onSubmit` does
not run, and the state is unchanged, so nothing is written to local storage and no download
is triggered, in both files. -/
theorem C6_empty_name_rejected (now : Nat) (form : Form) (env : Env) (h : form.name = "") :
    Field.name ∈ (AppJs.Careers.submit now form env).invalid ∧
    (AppJs.Careers.submit now form env).env = env ∧
    (AppJs.Careers.submit now form env).env.localStorage = env.localStorage ∧
    (AppJs.Careers.submit now form env).env.downloads = env.downloads ∧
    Field.name ∈ (ProV6.Careers.submit now form env).invalid ∧
    (ProV6.Careers.submit now form env).env = env ∧
    (ProV6.Careers.submit now form env).env.localStorage = env.localStorage ∧
    (ProV6.Careers.submit now form env).env.downloads = env.downloads := by
  have hi : Html.Control.invalid
      (⟨.name, "text", true, Html.inputValue "text" form.name⟩ : Control) = true := by
    rw [h]
    decide
  have hA := Html.submit_of_invalid (Careers.controls form) (AppJs.Careers.onSubmit now form)
    env _ (Careers.name_control_mem form) hi
  have hP := Html.submit_of_invalid (Careers.controls form) (ProV6.Careers.onSubmit now form)
    env _ (Careers.name_control_mem form) hi
  unfold AppJs.Careers.submit ProV6.Careers.submit
  refine ⟨hA.2, hA.1, ?_, ?_, hP.2, hP.1, ?_, ?_⟩
  · rw [hA.1]
  · rw [hA.1]
  · rw [hP.1]
  · rw [hP.1]

theorem C6_empty_name_rejected_witness :
    Field.name ∈ (AppJs.Careers.submit 1700000000000
      ⟨"", "j@x.com", "555", "", "chemical_engineer", "0-2", none, ""⟩ ⟨[], [], false⟩).invalid ∧
    (AppJs.Careers.submit 1700000000000
      ⟨"", "j@x.com", "555", "", "chemical_engineer", "0-2", none, ""⟩ ⟨[], [], false⟩).env
      = ⟨[], [], false⟩ ∧
    (AppJs.Careers.submit 1700000000000
      ⟨"", "j@x.com", "555", "", "chemical_engineer", "0-2", none, ""⟩
      ⟨[], [], false⟩).env.localStorage = [] ∧
    (AppJs.Careers.submit 1700000000000
      ⟨"", "j@x.com", "555", "", "chemical_engineer", "0-2", none, ""⟩
      ⟨[], [], false⟩).env.downloads = [] ∧
    Field.name ∈ (ProV6.Careers.submit 1700000000000
      ⟨"", "j@x.com", "555", "", "chemical_engineer", "0-2", none, ""⟩ ⟨[], [], false⟩).invalid ∧
    (ProV6.Careers.submit 1700000000000
      ⟨"", "j@x.com", "555", "", "chemical_engineer", "0-2", none, ""⟩ ⟨[], [], false⟩).env
      = ⟨[], [], false⟩ ∧
    (ProV6.Careers.submit 1700000000000
      ⟨"", "j@x.com", "555", "", "chemical_engineer", "0-2", none, ""⟩
      ⟨[], [], false⟩).env.localStorage = [] ∧
    (ProV6.Careers.submit 1700000000000
      ⟨"", "j@x.com", "555", "", "chemical_engineer", "0-2", none, ""⟩
      ⟨[], [], false⟩).env.downloads = [] :=
  C6_empty_name_rejected 1700000000000
    ⟨"", "j@x.com", "555", "", "chemical_engineer", "0-2", none, ""⟩ ⟨[], [], false⟩ rfl

/-- Claim C7 as stated fails: a form with non-empty name, email and phone whose email is
`"abc"` is not submitted. The Email input is declared `type="email"`, so the value fails the
address check, the field is reported invalid and nothing is stored or downloaded. -/
theorem C7_counterexample :
    ("Jane Doe" ≠ "" ∧ "abc" ≠ "" ∧ "555" ≠ "") ∧
    AppJs.Careers.submit 1700000000000
      ⟨"Jane Doe", "abc", "555", "", "chemical_engineer", "0-2", none, ""⟩ ⟨[], [], false⟩
      = ⟨[.email], ⟨[], [], false⟩⟩ ∧
    ProV6.Careers.submit 1700000000000
      ⟨"Jane Doe", "abc", "555", "", "chemical_engineer", "0-2", none, ""⟩ ⟨[], [], false⟩
      = ⟨[.email], ⟨[], [], false⟩⟩ := by
  decide

/-- Claim C7, amended: for every careers form whose Full Name and Phone values are non-empty
and whose Email value is a valid e-mail address (the check of the `type="email"` input),
submission succeeds whatever the content of phone and of the optional fields: `onSubmit`
runs, it checks nothing itself, stores the serialised payload under the timestamp key and
triggers the download, in both files. -/
theorem C7_submit_succeeds (now : Nat) (form : Form) (env : Env)
    (hn : Html.inputValue "text" form.name ≠ "")
    (hp : Html.inputValue "text" form.phone ≠ "")
    (he : Html.validEmail (Html.inputValue "email" form.email) = true) :
    AppJs.Careers.submit now form env = ⟨[], AppJs.Careers.onSubmit now form env⟩ ∧
    (AppJs.Careers.submit now form env).env.localStorage.lookup (Careers.storageKey now)
      = some (JS.stringify (Careers.payload form)) ∧
    (AppJs.Careers.submit now form env).env.downloads = env.downloads ++
      [(AppJs.Careers.downloadName form.name, JS.stringifyIndent2 (Careers.payload form))] ∧
    ProV6.Careers.submit now form env = ⟨[], ProV6.Careers.onSubmit now form env⟩ ∧
    (ProV6.Careers.submit now form env).env.localStorage.lookup (Careers.storageKey now)
      = some (JS.stringify (Careers.payload form)) ∧
    (ProV6.Careers.submit now form env).env.downloads = env.downloads ++
      [(ProV6.Careers.downloadName form.name, JS.stringifyIndent2 (Careers.payload form))] := by
  have hv := Careers.controls_valid form hn hp he
  have hA : AppJs.Careers.submit now form env = ⟨[], AppJs.Careers.onSubmit now form env⟩ :=
    Html.submit_of_valid _ _ env hv
  have hP : ProV6.Careers.submit now form env = ⟨[], ProV6.Careers.onSubmit now form env⟩ :=
    Html.submit_of_valid _ _ env hv
  refine ⟨hA, ?_, ?_, hP, ?_, ?_⟩
  · rw [hA]
    simp [AppJs.Careers.onSubmit, JS.setItem, List.lookup]
  · rw [hA]
    rfl
  · rw [hP]
    simp [ProV6.Careers.onSubmit, JS.setItem, List.lookup]
  · rw [hP]
    rfl

theorem C7_submit_succeeds_witness :
    AppJs.Careers.submit 1700000000000
      ⟨"Jane Doe", "j@x.com", "555", "", "chemical_engineer", "0-2", none, ""⟩ ⟨[], [], false⟩
      = ⟨[], AppJs.Careers.onSubmit 1700000000000
        ⟨"Jane Doe", "j@x.com", "555", "", "chemical_engineer", "0-2", none, ""⟩
        ⟨[], [], false⟩⟩ ∧
    (AppJs.Careers.submit 1700000000000
      ⟨"Jane Doe", "j@x.com", "555", "", "chemical_engineer", "0-2", none, ""⟩
      ⟨[], [], false⟩).env.localStorage.lookup (Careers.storageKey 1700000000000)
      = some (JS.stringify (Careers.payload
        ⟨"Jane Doe", "j@x.com", "555", "", "chemical_engineer", "0-2", none, ""⟩)) ∧
    (AppJs.Careers.submit 1700000000000
      ⟨"Jane Doe", "j@x.com", "555", "", "chemical_engineer", "0-2", none, ""⟩
      ⟨[], [], false⟩).env.downloads = [] ++
      [(AppJs.Careers.downloadName "Jane Doe", JS.stringifyIndent2 (Careers.payload
        ⟨"Jane Doe", "j@x.com", "555", "", "chemical_engineer", "0-2", none, ""⟩))] ∧
    ProV6.Careers.submit 1700000000000
      ⟨"Jane Doe", "j@x.com", "555", "", "chemical_engineer", "0-2", none, ""⟩ ⟨[], [], false⟩
      = ⟨[], ProV6.Careers.onSubmit 1700000000000
        ⟨"Jane Doe", "j@x.com", "555", "", "chemical_engineer", "0-2", none, ""⟩
        ⟨[], [], false⟩⟩ ∧
    (ProV6.Careers.submit 1700000000000
      ⟨"Jane Doe", "j@x.com", "555", "", "chemical_engineer", "0-2", none, ""⟩
      ⟨[], [], false⟩).env.localStorage.lookup (Careers.storageKey 1700000000000)
      = some (JS.stringify (Careers.payload
        ⟨"Jane Doe", "j@x.com", "555", "", "chemical_engineer", "0-2", none, ""⟩)) ∧
    (ProV6.Careers.submit 1700000000000
      ⟨"Jane Doe", "j@x.com", "555", "", "chemical_engineer", "0-2", none, ""⟩
      ⟨[], [], false⟩).env.downloads = [] ++
      [(ProV6.Careers.downloadName "Jane Doe", JS.stringifyIndent2 (Careers.payload
        ⟨"Jane Doe", "j@x.com", "555", "", "chemical_engineer", "0-2", none, ""⟩))] :=
  C7_submit_succeeds 1700000000000
    ⟨"Jane Doe", "j@x.com", "555", "", "chemical_engineer", "0-2", none, ""⟩ ⟨[], [], false⟩
    (by decide) (by decide) (by decide)

/-! ## Shared lemmas on the whitespace replacement -/

theorem JS.underscore_not_ws : JS.isWhiteSpace '_' = false := by decide

theorem JS.ws_ne_underscore (c : Char) (h : JS.isWhiteSpace c = true) : c ≠ '_' := by
  rintro rfl
  exact absurd h (by decide)

/-- The output of the replacement holds no whitespace. -/
theorem JS.replaceWsAux_no_ws (l : List Char) :
    ∀ b c, c ∈ JS.replaceWsAux b l → JS.isWhiteSpace c = false := by
  induction l with
  | nil => intro b c hc; simp [JS.replaceWsAux] at hc
  | cons x xs ih =>
    intro b c hc
    unfold JS.replaceWsAux at hc
    by_cases hx : JS.isWhiteSpace x = true
    · rw [if_pos hx] at hc
      cases b with
      | true => exact ih true c (by simpa using hc)
      | false =>
        simp only [Bool.false_eq_true, if_false, List.mem_cons] at hc
        rcases hc with rfl | hc
        · exact JS.underscore_not_ws
        · exact ih true c hc
    · rw [if_neg hx, List.mem_cons] at hc
      rcases hc with rfl | hc
      · simpa using hx
      · exact ih false c hc

/-- Every character of the input that is neither whitespace nor `_` is kept, in order. -/
theorem JS.replaceWsAux_filter (l : List Char) :
    ∀ b, (JS.replaceWsAux b l).filter (fun c => c != '_') =
      l.filter (fun c => !JS.isWhiteSpace c && c != '_') := by
  induction l with
  | nil => intro b; rfl
  | cons x xs ih =>
    intro b
    unfold JS.replaceWsAux
    by_cases hx : JS.isWhiteSpace x = true
    · rw [if_pos hx]
      cases b with
      | true => simp [hx, ih true]
      | false => simp [hx, ih true]
    · rw [if_neg hx]
      have hx0 : JS.isWhiteSpace x = false := by simpa using hx
      simp [List.filter_cons, hx0, ih false]

/-- The replacement adds exactly one `_` per maximal whitespace run. -/
theorem JS.replaceWsAux_count (l : List Char) :
    ∀ b, (JS.replaceWsAux b l).count '_' = l.count '_' + wsRunsFrom b l := by
  induction l with
  | nil => intro b; rfl
  | cons x xs ih =>
    intro b
    unfold JS.replaceWsAux wsRunsFrom
    by_cases hx : JS.isWhiteSpace x = true
    · have hne : x ≠ '_' := JS.ws_ne_underscore x hx
      rw [if_pos hx, if_pos hx, List.count_cons_of_ne hne.symm]
      cases b with
      | true => simp [ih true]
      | false =>
        simp only [Bool.false_eq_true, if_false, List.count_cons_self, ih true]
        omega
    · rw [if_neg hx, if_neg hx, List.count_cons, List.count_cons, ih false]
      omega

theorem String.mk_ne_empty_of_cons (c : Char) (cs : List Char) : String.mk (c :: cs) ≠ "" := by
  intro h
  have := congrArg String.data h
  simp at this

theorem JS.replaceWs_ne_empty (s : String) (h : s ≠ "") : JS.replaceWs s ≠ "" := by
  obtain ⟨l⟩ := s
  cases l with
  | nil => exact absurd rfl h
  | cons x xs =>
    unfold JS.replaceWs JS.replaceWsAux
    by_cases hx : JS.isWhiteSpace x = true
    · simp only [hx, if_true, Bool.false_eq_true, if_false]
      exact String.mk_ne_empty_of_cons _ _
    · simp only [hx, if_false]
      exact String.mk_ne_empty_of_cons _ _

/-- App.js applies the placeholder after the replacement, HyperChem_ProV6.jsx before it;
both stems are the replacement applied to `name || "candidate"`. -/
theorem AppJs.downloadStem_eq_or_replaceWs (name : String) :
    AppJs.Careers.downloadStem name = JS.replaceWs (JS.or name "candidate") := by
  unfold AppJs.Careers.downloadStem JS.or
  by_cases h : name = ""
  · subst h
    decide
  · rw [if_neg (JS.replaceWs_ne_empty name h), if_neg h]

theorem ProV6.downloadStem_eq_replaceWs (name : String) :
    ProV6.Careers.downloadStem name = JS.replaceWs (JS.or name "candidate") := rfl

theorem JS.replaceWsAux_word_append (w : List Char) (hw : ∀ c ∈ w, JS.isWhiteSpace c = false)
    (t : List Char) : JS.replaceWsAux false (w ++ t) = w ++ JS.replaceWsAux false t := by
  induction w with
  | nil => rfl
  | cons c cs ih =>
    have hc : JS.isWhiteSpace c = false := hw c (List.mem_cons_self _ _)
    have hcs : ∀ d ∈ cs, JS.isWhiteSpace d = false := fun d hd => hw d (List.mem_cons_of_mem _ hd)
    rw [List.cons_append, JS.replaceWsAux, if_neg (by simp [hc]), ih hcs, List.cons_append]

theorem JS.replaceWsAux_true_word_append (w : List Char) (hne : w ≠ [])
    (hw : ∀ c ∈ w, JS.isWhiteSpace c = false) (t : List Char) :
    JS.replaceWsAux true (w ++ t) = w ++ JS.replaceWsAux false t := by
  cases w with
  | nil => exact absurd rfl hne
  | cons c cs =>
    have hc : JS.isWhiteSpace c = false := hw c (List.mem_cons_self _ _)
    have hcs : ∀ d ∈ cs, JS.isWhiteSpace d = false := fun d hd => hw d (List.mem_cons_of_mem _ hd)
    rw [List.cons_append, JS.replaceWsAux, if_neg (by simp [hc]),
      JS.replaceWsAux_word_append cs hcs t, List.cons_append]

theorem JS.replaceWsAux_true_run_append (r : List Char) (hr : ∀ c ∈ r, JS.isWhiteSpace c = true)
    (t : List Char) : JS.replaceWsAux true (r ++ t) = JS.replaceWsAux true t := by
  induction r with
  | nil => rfl
  | cons c cs ih =>
    have hc : JS.isWhiteSpace c = true := hr c (List.mem_cons_self _ _)
    have hcs : ∀ d ∈ cs, JS.isWhiteSpace d = true := fun d hd => hr d (List.mem_cons_of_mem _ hd)
    rw [List.cons_append, JS.replaceWsAux, if_pos hc, if_pos rfl, ih hcs]

theorem JS.replaceWsAux_run_append (r : List Char) (hne : r ≠ [])
    (hr : ∀ c ∈ r, JS.isWhiteSpace c = true) (t : List Char) :
    JS.replaceWsAux false (r ++ t) = '_' :: JS.replaceWsAux true t := by
  cases r with
  | nil => exact absurd rfl hne
  | cons c cs =>
    have hc : JS.isWhiteSpace c = true := hr c (List.mem_cons_self _ _)
    have hcs : ∀ d ∈ cs, JS.isWhiteSpace d = true := fun d hd => hr d (List.mem_cons_of_mem _ hd)
    rw [List.cons_append, JS.replaceWsAux, if_pos hc, if_neg (by decide),
      JS.replaceWsAux_true_run_append cs hcs t]

/-- Separator runs followed by words: each run becomes one underscore. -/
theorem JS.replaceWsAux_pairs (rest : List (List Char × List Char))
    (h : ∀ p ∈ rest, p.1 ≠ [] ∧ (∀ c ∈ p.1, JS.isWhiteSpace c = true) ∧
      p.2 ≠ [] ∧ (∀ c ∈ p.2, JS.isWhiteSpace c = false)) :
    JS.replaceWsAux false (rest.flatMap fun p => p.1 ++ p.2) =
      rest.flatMap fun p => '_' :: p.2 := by
  induction rest with
  | nil => rfl
  | cons p ps ih =>
    obtain ⟨h1, h2, h3, h4⟩ := h p (List.mem_cons_self _ _)
    have hps := ih (fun q hq => h q (List.mem_cons_of_mem _ hq))
    simp only [List.flatMap_cons, List.append_assoc, List.cons_append]
    rw [JS.replaceWsAux_run_append p.1 h1 h2, JS.replaceWsAux_true_word_append p.2 h3 h4, hps]

theorem intercalate_go_words (rest : List (List Char × List Char)) (acc : String) :
    String.intercalate.go acc "_" (rest.map fun p => (⟨p.2⟩ : String)) =
      acc ++ ⟨rest.flatMap fun p => '_' :: p.2⟩ := by
  induction rest generalizing acc with
  | nil =>
    apply String.ext
    simp [String.intercalate.go]
  | cons p ps ih =>
    simp only [List.map_cons, String.intercalate.go, ih]
    apply String.ext
    simp [String.data_append]

theorem intercalate_wordsOf (w : List Char) (rest : List (List Char × List Char)) :
    "_".intercalate (wordsOf w rest) = ⟨w ++ rest.flatMap fun p => '_' :: p.2⟩ := by
  unfold wordsOf
  rw [String.intercalate, intercalate_go_words]
  apply String.ext
  simp [String.data_append]

/-! ## Shared lemmas on the pieces of a name -/

theorem segmentsOf_cons (c : Char) (cs : List Char) :
    segmentsOf (c :: cs) =
      match segmentsOf cs with
      | [] => [⟨JS.isWhiteSpace c, [c]⟩]
      | seg :: rest =>
        if seg.isRun = JS.isWhiteSpace c then ⟨seg.isRun, c :: seg.chars⟩ :: rest
        else ⟨JS.isWhiteSpace c, [c]⟩ :: seg :: rest := rfl

/-- The pieces, put together again, are the name. -/
theorem flatten_segmentsOf (l : List Char) :
    (segmentsOf l).flatMap Segment.chars = l := by
  induction l with
  | nil => rfl
  | cons c cs ih =>
    rw [segmentsOf_cons]
    cases hS : segmentsOf cs with
    | nil =>
      rw [hS] at ih
      simp only [List.flatMap_cons, List.flatMap_nil, List.append_nil]
      rw [← ih]
      rfl
    | cons seg rest =>
      rw [hS] at ih
      simp only
      by_cases hk : seg.isRun = JS.isWhiteSpace c
      · rw [if_pos hk]
        simp only [List.flatMap_cons, List.cons_append] at ih ⊢
        rw [ih]
      · rw [if_neg hk]
        simp only [List.flatMap_cons, List.cons_append, List.nil_append] at ih ⊢
        rw [ih]

theorem homogeneous_cons (seg : Segment) (rest : List Segment) :
    homogeneous (seg :: rest) =
      ((!seg.chars.isEmpty && seg.chars.all fun c => JS.isWhiteSpace c == seg.isRun) &&
        homogeneous rest) := rfl

/-- Every piece is non-empty and of one kind. -/
theorem homogeneous_segmentsOf (l : List Char) : homogeneous (segmentsOf l) = true := by
  induction l with
  | nil => rfl
  | cons c cs ih =>
    rw [segmentsOf_cons]
    cases hS : segmentsOf cs with
    | nil => simp [homogeneous]
    | cons seg rest =>
      rw [hS, homogeneous_cons] at ih
      simp only [Bool.and_eq_true] at ih
      obtain ⟨⟨hne, hall⟩, hrest⟩ := ih
      simp only
      by_cases hk : seg.isRun = JS.isWhiteSpace c
      · rw [if_pos hk, homogeneous_cons]
        simp only [Bool.and_eq_true]
        refine ⟨⟨by simp, ?_⟩, hrest⟩
        simp only [List.all_cons, Bool.and_eq_true]
        exact ⟨by simp [hk], hall⟩
      · rw [if_neg hk, homogeneous_cons, homogeneous_cons]
        simp only [Bool.and_eq_true]
        exact ⟨⟨by simp, by simp⟩, ⟨hne, hall⟩, hrest⟩

theorem alternating_cons_cons (a b : Segment) (rest : List Segment) :
    alternating (a :: b :: rest) = ((a.isRun != b.isRun) && alternating (b :: rest)) := rfl

/-- The first piece may be replaced by another of the same kind. -/
theorem alternating_head_kind (a a2 : Segment) (rest : List Segment)
    (hk : a2.isRun = a.isRun) (h : alternating (a :: rest) = true) :
    alternating (a2 :: rest) = true := by
  cases rest with
  | nil => rfl
  | cons b rest2 =>
    rw [alternating_cons_cons] at h ⊢
    rw [hk]
    exact h

/-- Neighbouring pieces are of different kinds. -/
theorem alternating_segmentsOf (l : List Char) : alternating (segmentsOf l) = true := by
  induction l with
  | nil => rfl
  | cons c cs ih =>
    rw [segmentsOf_cons]
    cases hS : segmentsOf cs with
    | nil => rfl
    | cons seg rest =>
      rw [hS] at ih
      simp only
      by_cases hk : seg.isRun = JS.isWhiteSpace c
      · rw [if_pos hk]
        exact alternating_head_kind seg _ rest rfl ih
      · rw [if_neg hk, alternating_cons_cons, ih]
        have : (JS.isWhiteSpace c != seg.isRun) = true := by
          simp only [bne_iff_ne, ne_eq]
          exact fun e => hk e.symm
        simp [this]

theorem underscored_cons (seg : Segment) (rest : List Segment) :
    underscored (seg :: rest) =
      (if seg.isRun then ['_'] else seg.chars) ++ underscored rest := rfl

/-- The scanner of `replace(/\s+/g, "_")` writes the pieces of the name with every run
replaced by one underscore. -/
theorem JS.replaceWsAux_eq_underscoredAfter (l : List Char) :
    ∀ b, JS.replaceWsAux b l = underscoredAfter b (segmentsOf l) := by
  induction l with
  | nil => intro b; rfl
  | cons c cs ih =>
    intro b
    rw [segmentsOf_cons, JS.replaceWsAux]
    by_cases hc : JS.isWhiteSpace c = true
    · rw [if_pos hc, ih true]
      cases hS : segmentsOf cs with
      | nil =>
        cases b <;> simp [underscoredAfter, underscored, hc]
      | cons seg rest =>
        cases hrun : seg.isRun with
        | true =>
          cases b <;> simp [underscoredAfter, underscored_cons, hc, hrun]
        | false =>
          cases b <;> simp [underscoredAfter, underscored_cons, hc, hrun]
    · have hc0 : JS.isWhiteSpace c = false := by simpa using hc
      rw [if_neg hc, ih false]
      cases hS : segmentsOf cs with
      | nil =>
        cases b <;> simp [underscoredAfter, underscored, hc0]
      | cons seg rest =>
        cases hrun : seg.isRun with
        | true =>
          cases b <;> simp [underscoredAfter, underscored_cons, hc0, hrun]
        | false =>
          cases b <;> simp [underscoredAfter, underscored_cons, hc0, hrun]

theorem JS.replaceWs_data (s : String) :
    (JS.replaceWs s).data = underscored (segmentsOf s.data) := by
  show JS.replaceWsAux false s.data = _
  rw [JS.replaceWsAux_eq_underscoredAfter]
  cases segmentsOf s.data with
  | nil => rfl
  | cons seg rest => simp [underscoredAfter]

/-! ## Download file names (claims C8 to C10) -/

/-- Claim C8 as stated fails: for the name `"J.Doe"` the file name is
`application_J.Doe.json`; the dot, which is neither alphanumeric nor the separator, is kept,
because only whitespace runs are replaced. -/
theorem C8_counterexample :
    AppJs.Careers.downloadName "J.Doe" = "application_J.Doe.json" ∧
    ProV6.Careers.downloadName "J.Doe" = "application_J.Doe.json" ∧
    AppJs.Careers.downloadStem "J.Doe" = "J.Doe" ∧
    ProV6.Careers.downloadStem "J.Doe" = "J.Doe" ∧
    ¬ (∀ c ∈ (AppJs.Careers.downloadStem "J.Doe").data, c.isAlphanum = true ∨ c = '_') ∧
    ¬ (∀ c ∈ (ProV6.Careers.downloadStem "J.Doe").data, c.isAlphanum = true ∨ c = '_') := by
  decide

/-- Claim C8, amended: the download file name is `application_` ++ stem ++ `.json`, where the
stem is derived from the applicant's name (from the placeholder `candidate` when the name is
empty) by replacing, in place, every maximal run of whitespace with a single `_`: for every
name, cut into its maximal whitespace runs and the words between them (the pieces put
together give the name back, every piece is non-empty and of one kind, and neighbours
alternate), the stem is the same sequence of pieces with every run replaced by one `_` and
every word kept unchanged where it stands, whether alphanumeric or not. Hence the stem holds
no whitespace, keeps the other characters in order and gains exactly one `_` per run, in
both files; so `Jane Doe` gives `Jane_Doe`, ` Jane` gives `_Jane`, `a_b c` gives `a_b_c`. -/
theorem C8_whitespace_runs_replaced (name : String) :
    AppJs.Careers.downloadName name =
      "application_" ++ AppJs.Careers.downloadStem name ++ ".json" ∧
    ProV6.Careers.downloadName name =
      "application_" ++ ProV6.Careers.downloadStem name ++ ".json" ∧
    ProV6.Careers.downloadStem name = AppJs.Careers.downloadStem name ∧
    (∀ c ∈ (AppJs.Careers.downloadStem name).data, JS.isWhiteSpace c = false) ∧
    (AppJs.Careers.downloadStem name).data.filter (fun c => c != '_') =
      (JS.or name "candidate").data.filter (fun c => !JS.isWhiteSpace c && c != '_') ∧
    (AppJs.Careers.downloadStem name).data.count '_' =
      (JS.or name "candidate").data.count '_' + wsRuns (JS.or name "candidate") ∧
    (segmentsOf (JS.or name "candidate").data).flatMap Segment.chars =
      (JS.or name "candidate").data ∧
    homogeneous (segmentsOf (JS.or name "candidate").data) = true ∧
    alternating (segmentsOf (JS.or name "candidate").data) = true ∧
    (AppJs.Careers.downloadStem name).data =
      underscored (segmentsOf (JS.or name "candidate").data) ∧
    (ProV6.Careers.downloadStem name).data =
      underscored (segmentsOf (JS.or name "candidate").data) ∧
    AppJs.Careers.downloadStem "Jane Doe" = "Jane_Doe" ∧
    ProV6.Careers.downloadStem "Jane Doe" = "Jane_Doe" ∧
    AppJs.Careers.downloadStem " Jane" = "_Jane" ∧
    ProV6.Careers.downloadStem " Jane" = "_Jane" ∧
    AppJs.Careers.downloadStem "a_b  c " = "a_b_c_" ∧
    ProV6.Careers.downloadStem "a_b  c " = "a_b_c_" := by
  refine ⟨rfl, rfl, ?_, ?_, ?_, ?_, flatten_segmentsOf _, homogeneous_segmentsOf _,
    alternating_segmentsOf _, ?_, ?_, by decide, by decide, by decide, by decide, by decide,
    by decide⟩
  · rw [AppJs.downloadStem_eq_or_replaceWs, ProV6.downloadStem_eq_replaceWs]
  · rw [AppJs.downloadStem_eq_or_replaceWs]
    exact fun c hc => JS.replaceWsAux_no_ws _ false c hc
  · rw [AppJs.downloadStem_eq_or_replaceWs]
    exact JS.replaceWsAux_filter _ false
  · rw [AppJs.downloadStem_eq_or_replaceWs]
    exact JS.replaceWsAux_count _ false
  · rw [AppJs.downloadStem_eq_or_replaceWs]
    exact JS.replaceWs_data _
  · rw [ProV6.downloadStem_eq_replaceWs]
    exact JS.replaceWs_data _

/-- Claim C9: for every name made of non-empty words without whitespace, separated by
non-empty whitespace runs (no leading or trailing whitespace), the download file name is
`application_`, the words joined by single underscores, `.json`, in both files; in
particular the name `Jane Doe` gives `application_Jane_Doe.json`. -/
theorem C9_words_joined_by_underscores (w : List Char) (rest : List (List Char × List Char))
    (hne : w ≠ []) (hw : ∀ c ∈ w, JS.isWhiteSpace c = false)
    (hrest : ∀ p ∈ rest, p.1 ≠ [] ∧ (∀ c ∈ p.1, JS.isWhiteSpace c = true) ∧
      p.2 ≠ [] ∧ (∀ c ∈ p.2, JS.isWhiteSpace c = false)) :
    AppJs.Careers.downloadName (spacedName w rest) =
      "application_" ++ "_".intercalate (wordsOf w rest) ++ ".json" ∧
    ProV6.Careers.downloadName (spacedName w rest) =
      "application_" ++ "_".intercalate (wordsOf w rest) ++ ".json" ∧
    AppJs.Careers.downloadName "Jane Doe" = "application_Jane_Doe.json" ∧
    ProV6.Careers.downloadName "Jane Doe" = "application_Jane_Doe.json" := by
  have hname : spacedName w rest ≠ "" := by
    cases w with
    | nil => exact absurd rfl hne
    | cons c cs => exact String.mk_ne_empty_of_cons _ _
  have hstem : JS.replaceWs (JS.or (spacedName w rest) "candidate") =
      "_".intercalate (wordsOf w rest) := by
    rw [intercalate_wordsOf, JS.or, if_neg hname]
    unfold JS.replaceWs spacedName
    rw [JS.replaceWsAux_word_append w hw, JS.replaceWsAux_pairs rest hrest]
  refine ⟨?_, ?_, by decide, by decide⟩
  · unfold AppJs.Careers.downloadName
    rw [AppJs.downloadStem_eq_or_replaceWs, hstem]
  · unfold ProV6.Careers.downloadName
    rw [ProV6.downloadStem_eq_replaceWs, hstem]

theorem C9_words_joined_by_underscores_witness :
    AppJs.Careers.downloadName
        (spacedName "Mary".data [(" \t ".data, "Ann".data), (" ".data, "O-Neil".data)]) =
      "application_" ++ "_".intercalate
        (wordsOf "Mary".data [(" \t ".data, "Ann".data), (" ".data, "O-Neil".data)]) ++ ".json" ∧
    ProV6.Careers.downloadName
        (spacedName "Mary".data [(" \t ".data, "Ann".data), (" ".data, "O-Neil".data)]) =
      "application_" ++ "_".intercalate
        (wordsOf "Mary".data [(" \t ".data, "Ann".data), (" ".data, "O-Neil".data)]) ++ ".json" ∧
    AppJs.Careers.downloadName "Jane Doe" = "application_Jane_Doe.json" ∧
    ProV6.Careers.downloadName "Jane Doe" = "application_Jane_Doe.json" :=
  C9_words_joined_by_underscores "Mary".data
    [(" \t ".data, "Ann".data), (" ".data, "O-Neil".data)]
    (by decide) (by decide) (by decide)

/-- Claim C10: when the name field is empty the download file name falls back to the generic
placeholder: the name `""` gives exactly `application_candidate.json`, in both files. -/
theorem C10_empty_name_placeholder :
    AppJs.Careers.downloadName "" = "application_candidate.json" ∧
    ProV6.Careers.downloadName "" = "application_candidate.json" := by
  decide

/-! ## Download file names, continued (claims C17, C19, C20) -/

/-- Claim C17: the two files derive the same download file name for every name, although
App.js applies the `candidate` fallback after the whitespace replacement and
HyperChem_ProV6.jsx before it. -/
theorem C17_same_download_name (name : String) :
    AppJs.Careers.downloadName name = ProV6.Careers.downloadName name := by
  unfold AppJs.Careers.downloadName ProV6.Careers.downloadName
  rw [AppJs.downloadStem_eq_or_replaceWs, ProV6.downloadStem_eq_replaceWs]

theorem JS.replaceWsAux_all_ws (l : List Char) (h : ∀ c ∈ l, JS.isWhiteSpace c = true) :
    JS.replaceWsAux true l = [] := by
  have := JS.replaceWsAux_true_run_append l h []
  rw [List.append_nil] at this
  rw [this]
  rfl

/-- A non-empty string of whitespace only is one run, replaced by one underscore. -/
theorem JS.replaceWs_all_ws (name : String) (hne : name ≠ "")
    (hws : ∀ c ∈ name.data, JS.isWhiteSpace c = true) : JS.replaceWs name = "_" := by
  obtain ⟨l⟩ := name
  cases l with
  | nil => exact absurd rfl hne
  | cons c cs =>
    have hc : JS.isWhiteSpace c = true := hws c (List.mem_cons_self _ _)
    have hcs : ∀ d ∈ cs, JS.isWhiteSpace d = true := fun d hd => hws d (List.mem_cons_of_mem _ hd)
    unfold JS.replaceWs
    show String.mk (JS.replaceWsAux false (c :: cs)) = "_"
    rw [JS.replaceWsAux, if_pos hc, if_neg (by decide), JS.replaceWsAux_all_ws cs hcs]

/-- Claim C19: a name consisting only of whitespace does not get the placeholder: for every
non-empty name made solely of whitespace characters the download file name is
`application__.json`, not `application_candidate.json`, in both files. -/
theorem C19_whitespace_only_name (name : String) (hne : name ≠ "")
    (hws : ∀ c ∈ name.data, JS.isWhiteSpace c = true) :
    AppJs.Careers.downloadName name = "application__.json" ∧
    ProV6.Careers.downloadName name = "application__.json" ∧
    AppJs.Careers.downloadStem name = "_" ∧ ProV6.Careers.downloadStem name = "_" ∧
    AppJs.Careers.downloadName name ≠ "application_candidate.json" ∧
    ProV6.Careers.downloadName name ≠ "application_candidate.json" := by
  have hstem : JS.replaceWs (JS.or name "candidate") = "_" := by
    rw [JS.or, if_neg hne]
    exact JS.replaceWs_all_ws name hne hws
  have hA : AppJs.Careers.downloadStem name = "_" := by
    rw [AppJs.downloadStem_eq_or_replaceWs, hstem]
  have hP : ProV6.Careers.downloadStem name = "_" := by
    rw [ProV6.downloadStem_eq_replaceWs, hstem]
  have hAn : AppJs.Careers.downloadName name = "application__.json" := by
    unfold AppJs.Careers.downloadName
    rw [hA]
    decide
  have hPn : ProV6.Careers.downloadName name = "application__.json" := by
    unfold ProV6.Careers.downloadName
    rw [hP]
    decide
  refine ⟨hAn, hPn, hA, hP, ?_, ?_⟩
  · rw [hAn]
    decide
  · rw [hPn]
    decide

theorem C19_whitespace_only_name_witness :
    AppJs.Careers.downloadName " \t  " = "application__.json" ∧
    ProV6.Careers.downloadName " \t  " = "application__.json" ∧
    AppJs.Careers.downloadStem " \t  " = "_" ∧ ProV6.Careers.downloadStem " \t  " = "_" ∧
    AppJs.Careers.downloadName " \t  " ≠ "application_candidate.json" ∧
    ProV6.Careers.downloadName " \t  " ≠ "application_candidate.json" :=
  C19_whitespace_only_name " \t  " (by decide) (by decide)

theorem JS.replaceWs_or_candidate_ne_empty (name : String) :
    JS.replaceWs (JS.or name "candidate") ≠ "" := by
  apply JS.replaceWs_ne_empty
  unfold JS.or
  by_cases h : name = ""
  · rw [if_pos h]
    decide
  · rw [if_neg h]
    exact h

/-- Claim C20: for every name, empty or not, the download file name starts with
`application_`, ends with `.json`, has a non-empty name part in between, and holds no
whitespace character, in both files. -/
theorem C20_download_name_shape (name : String) :
    AppJs.Careers.downloadName name =
      "application_" ++ AppJs.Careers.downloadStem name ++ ".json" ∧
    "application_".data <+: (AppJs.Careers.downloadName name).data ∧
    ".json".data <:+ (AppJs.Careers.downloadName name).data ∧
    AppJs.Careers.downloadStem name ≠ "" ∧
    (∀ c ∈ (AppJs.Careers.downloadName name).data, JS.isWhiteSpace c = false) ∧
    ProV6.Careers.downloadName name =
      "application_" ++ ProV6.Careers.downloadStem name ++ ".json" ∧
    "application_".data <+: (ProV6.Careers.downloadName name).data ∧
    ".json".data <:+ (ProV6.Careers.downloadName name).data ∧
    ProV6.Careers.downloadStem name ≠ "" ∧
    (∀ c ∈ (ProV6.Careers.downloadName name).data, JS.isWhiteSpace c = false) := by
  have key : ∀ stem : String, stem ≠ "" → (∀ c ∈ stem.data, JS.isWhiteSpace c = false) →
      "application_".data <+: ("application_" ++ stem ++ ".json").data ∧
      ".json".data <:+ ("application_" ++ stem ++ ".json").data ∧
      (∀ c ∈ ("application_" ++ stem ++ ".json").data, JS.isWhiteSpace c = false) := by
    intro stem _ hws
    refine ⟨⟨stem.data ++ ".json".data, by simp [String.data_append]⟩,
      ⟨"application_".data ++ stem.data, by simp [String.data_append]⟩, ?_⟩
    intro c hc
    simp only [String.data_append, List.mem_append] at hc
    rcases hc with (hc | hc) | hc
    · revert c
      decide
    · exact hws c hc
    · revert c
      decide
  have hAne : AppJs.Careers.downloadStem name ≠ "" := by
    rw [AppJs.downloadStem_eq_or_replaceWs]
    exact JS.replaceWs_or_candidate_ne_empty name
  have hPne : ProV6.Careers.downloadStem name ≠ "" := by
    rw [ProV6.downloadStem_eq_replaceWs]
    exact JS.replaceWs_or_candidate_ne_empty name
  have hAws : ∀ c ∈ (AppJs.Careers.downloadStem name).data, JS.isWhiteSpace c = false := by
    rw [AppJs.downloadStem_eq_or_replaceWs]
    exact fun c hc => JS.replaceWsAux_no_ws _ false c hc
  have hPws : ∀ c ∈ (ProV6.Careers.downloadStem name).data, JS.isWhiteSpace c = false := by
    rw [ProV6.downloadStem_eq_replaceWs]
    exact fun c hc => JS.replaceWsAux_no_ws _ false c hc
  obtain ⟨a1, a2, a3⟩ := key _ hAne hAws
  obtain ⟨p1, p2, p3⟩ := key _ hPne hPws
  exact ⟨rfl, a1, a2, hAne, a3, rfl, p1, p2, hPne, p3⟩

/-! ## Navigation links (claim C18) -/

/-- Claim C18: navigation links round-trip through the router: for every declared path `p`
the `href` built by `Link`, taken as the location hash, resolves back to exactly `p`, and
the five links reach five different pages, in both files. -/
theorem C18_link_round_trip (p : String) (hp : p ∈ declaredPaths) :
    AppJs.Link p = "#" ++ p ∧ ProV6.Link p = "#" ++ p ∧
    AppJs.useHashRoute (AppJs.Link p) = p ∧ ProV6.useHashRoute (ProV6.Link p) = p ∧
    AppJs.App (AppJs.Link p) = AppJs.App.Page p ∧ ProV6.App (ProV6.Link p) = ProV6.App.Page p ∧
    (declaredPaths.map fun q => AppJs.App (AppJs.Link q)) =
      [.page .Home, .page .Products, .page .Careers, .page .About, .page .Contact] ∧
    (declaredPaths.map fun q => ProV6.App (ProV6.Link q)) =
      [.page .Home, .page .Products, .page .Careers, .page .About, .page .Contact] := by
  have hp' : p ∈ AppJs.routes := hp
  rw [mem_routes_iff] at hp'
  rcases hp' with rfl | rfl | rfl | rfl | rfl <;> decide

theorem C18_link_round_trip_witness :
    AppJs.Link "/careers" = "#" ++ "/careers" ∧ ProV6.Link "/careers" = "#" ++ "/careers" ∧
    AppJs.useHashRoute (AppJs.Link "/careers") = "/careers" ∧
    ProV6.useHashRoute (ProV6.Link "/careers") = "/careers" ∧
    AppJs.App (AppJs.Link "/careers") = AppJs.App.Page "/careers" ∧
    ProV6.App (ProV6.Link "/careers") = ProV6.App.Page "/careers" ∧
    (declaredPaths.map fun q => AppJs.App (AppJs.Link q)) =
      [.page .Home, .page .Products, .page .Careers, .page .About, .page .Contact] ∧
    (declaredPaths.map fun q => ProV6.App (ProV6.Link q)) =
      [.page .Home, .page .Products, .page .Careers, .page .About, .page .Contact] :=
  C18_link_round_trip "/careers" (by decide)

/-! ## The careers payload and its storage key (claims C12 and C13) -/

/-- Claim C12 as stated fails: with a resume attached whose file name is the empty string,
`form.resume?.name || null` is `null`, not the file name. -/
theorem C12_counterexample :
    (Careers.payload ⟨"Jane Doe", "j@x.com", "555", "", "chemical_engineer", "0-2",
      some ⟨""⟩, ""⟩).lookup "resumeName" = some .null ∧
    (Careers.payload ⟨"Jane Doe", "j@x.com", "555", "", "chemical_engineer", "0-2",
      some ⟨""⟩, ""⟩).lookup "resumeName" ≠ some (.str "") := by
  decide

/-- Claim C12, amended: the careers snapshot carries the resume file name and not the file:
for every form, `payload.resumeName` is the attached file name when a resume with a
non-empty name is attached, and `null` when none is attached (an attached file with an empty
name also gives `null`); every form field is copied into the payload unchanged, under its
own key and in the order of the form, and the `resume` property serialises without any file
content. -/
theorem C12_payload_resume_name (form : Form) (f : File)
    (hf : form.resume = some f) (hname : f.name ≠ "") :
    (Careers.payload form).lookup "resumeName" = some (.str f.name) ∧
    (Careers.payload { form with resume := none }).lookup "resumeName" = some .null ∧
    (Careers.payload { form with resume := some ⟨""⟩ }).lookup "resumeName" = some .null ∧
    (∀ g : Field, (Careers.payload form).lookup (Careers.fieldKey g) =
      some (Careers.fieldValue form g)) ∧
    (Careers.payload form).map Prod.fst =
      ["name", "email", "phone", "location", "role", "experience", "resume", "message",
       "resumeName"] ∧
    JS.stringifyValue (Careers.fieldValue form .resume) = "\x7b\x7d" := by
  refine ⟨?_, ?_, ?_, ?_, rfl, ?_⟩
  · simp [Careers.payload, Careers.resumeName, hf, hname, List.lookup]
  · simp [Careers.payload, Careers.resumeName, List.lookup]
  · simp [Careers.payload, Careers.resumeName, List.lookup]
  · intro g
    cases g <;> simp [Careers.payload, Careers.fieldKey, Careers.fieldValue, List.lookup]
  · simp [Careers.fieldValue, hf, JS.stringifyValue]

theorem C12_payload_resume_name_witness :
    (Careers.payload ⟨"Jane Doe", "j@x.com", "555", "", "chemical_engineer", "0-2",
      some ⟨"cv.pdf"⟩, ""⟩).lookup "resumeName" = some (.str (File.mk "cv.pdf").name) ∧
    (Careers.payload { (⟨"Jane Doe", "j@x.com", "555", "", "chemical_engineer", "0-2",
      some ⟨"cv.pdf"⟩, ""⟩ : Form) with resume := none }).lookup "resumeName" = some .null ∧
    (Careers.payload { (⟨"Jane Doe", "j@x.com", "555", "", "chemical_engineer", "0-2",
      some ⟨"cv.pdf"⟩, ""⟩ : Form) with resume := some ⟨""⟩ }).lookup "resumeName"
      = some .null ∧
    (∀ g : Field, (Careers.payload ⟨"Jane Doe", "j@x.com", "555", "", "chemical_engineer",
      "0-2", some ⟨"cv.pdf"⟩, ""⟩).lookup (Careers.fieldKey g) =
      some (Careers.fieldValue ⟨"Jane Doe", "j@x.com", "555", "", "chemical_engineer",
        "0-2", some ⟨"cv.pdf"⟩, ""⟩ g)) ∧
    (Careers.payload ⟨"Jane Doe", "j@x.com", "555", "", "chemical_engineer", "0-2",
      some ⟨"cv.pdf"⟩, ""⟩).map Prod.fst =
      ["name", "email", "phone", "location", "role", "experience", "resume", "message",
       "resumeName"] ∧
    JS.stringifyValue (Careers.fieldValue ⟨"Jane Doe", "j@x.com", "555", "",
      "chemical_engineer", "0-2", some ⟨"cv.pdf"⟩, ""⟩ .resume) = "\x7b\x7d" :=
  C12_payload_resume_name
    ⟨"Jane Doe", "j@x.com", "555", "", "chemical_engineer", "0-2", some ⟨"cv.pdf"⟩, ""⟩
    ⟨"cv.pdf"⟩ rfl (by decide)

theorem digitChar_toNat_sub (k : Nat) (hk : k < 10) : (Nat.digitChar k).toNat - 48 = k := by
  interval_cases k <;> rfl

theorem decimalValue_toDigitsCore (fuel : Nat) :
    ∀ n ds, n < fuel →
      decimalValue (Nat.toDigitsCore 10 fuel n ds) = n * 10 ^ ds.length + decimalValue ds := by
  induction fuel with
  | zero => intro n ds h; exact absurd h (Nat.not_lt_zero n)
  | succ fuel ih =>
    intro n ds h
    unfold Nat.toDigitsCore
    have hmod : (Nat.digitChar (n % 10)).toNat - 48 = n % 10 :=
      digitChar_toNat_sub _ (Nat.mod_lt n (by decide))
    have hsplit : n = 10 * (n / 10) + n % 10 := (Nat.div_add_mod n 10).symm
    by_cases h0 : n / 10 = 0
    · simp only [h0, if_true, decimalValue, hmod]
      have : n % 10 = n := by omega
      rw [this]
    · simp only [h0, if_false]
      rw [ih (n / 10) _ (by omega)]
      simp only [decimalValue, List.length_cons, hmod, pow_succ]
      generalize 10 ^ ds.length = P
      generalize decimalValue ds = D
      have : n * P = n / 10 * (P * 10) + n % 10 * P := by
        conv_lhs => rw [hsplit]
        ring
      omega

/-- The decimal text of a timestamp reads back as the timestamp. -/
theorem decimalValue_toString (n : Nat) : decimalValue (toString n).data = n := by
  show decimalValue (Nat.toDigitsCore 10 (n + 1) n []) = n
  rw [decimalValue_toDigitsCore (n + 1) n [] (Nat.lt_succ_self n)]
  simp [decimalValue]

theorem Careers.storageKey_data (t : Nat) :
    (Careers.storageKey t).data = "hyperchem-career-".data ++ (toString t).data := by
  simp [Careers.storageKey, String.data_append]

theorem Careers.storageKey_injective (t1 t2 : Nat)
    (h : Careers.storageKey t1 = Careers.storageKey t2) : t1 = t2 := by
  have hd := congrArg String.data h
  rw [Careers.storageKey_data, Careers.storageKey_data] at hd
  have := List.append_cancel_left hd
  rw [← decimalValue_toString t1, ← decimalValue_toString t2, this]

theorem JS.lookup_setItem_self (store : List (String × String)) (k v : String) :
    (JS.setItem store k v).lookup k = some v := by
  simp [JS.setItem, List.lookup]

theorem JS.lookup_filter_ne (store : List (String × String)) (k k2 : String) (h : k2 ≠ k) :
    (store.filter fun e => e.1 != k).lookup k2 = store.lookup k2 := by
  induction store with
  | nil => rfl
  | cons e es ih =>
    obtain ⟨a, b⟩ := e
    by_cases ha : a = k
    · subst ha
      have hne : (k2 == a) = false := by simpa using h
      simp [List.filter_cons, List.lookup, hne, ih]
    · have hak : (a != k) = true := by simpa using ha
      simp only [List.filter_cons, hak, if_true, List.lookup, ih]

theorem JS.lookup_setItem_ne (store : List (String × String)) (k v k2 : String) (h : k2 ≠ k) :
    (JS.setItem store k v).lookup k2 = store.lookup k2 := by
  have hne : (k2 == k) = false := by simpa using h
  simp only [JS.setItem, List.lookup, hne]
  exact JS.lookup_filter_ne store k k2 h

/-- Claim C13: the local-storage key of a careers submission is `hyperchem-career-` followed
by the decimal submission timestamp, and keys of different timestamps differ, so that after
a submission at `t1` and a later one at `t2 ≠ t1` both entries are present: the later
submission does not overwrite the earlier entry, in both files. -/
theorem C13_storage_key_distinguishes (t1 t2 : Nat) (h : t1 ≠ t2) (f1 f2 : Form) (env : Env) :
    Careers.storageKey t1 = "hyperchem-career-" ++ toString t1 ∧
    decimalValue (toString t1).data = t1 ∧
    Careers.storageKey t1 ≠ Careers.storageKey t2 ∧
    (AppJs.Careers.onSubmit t2 f2 (AppJs.Careers.onSubmit t1 f1 env)).localStorage.lookup
      (Careers.storageKey t1) = some (JS.stringify (Careers.payload f1)) ∧
    (AppJs.Careers.onSubmit t2 f2 (AppJs.Careers.onSubmit t1 f1 env)).localStorage.lookup
      (Careers.storageKey t2) = some (JS.stringify (Careers.payload f2)) ∧
    (ProV6.Careers.onSubmit t2 f2 (ProV6.Careers.onSubmit t1 f1 env)).localStorage.lookup
      (Careers.storageKey t1) = some (JS.stringify (Careers.payload f1)) ∧
    (ProV6.Careers.onSubmit t2 f2 (ProV6.Careers.onSubmit t1 f1 env)).localStorage.lookup
      (Careers.storageKey t2) = some (JS.stringify (Careers.payload f2)) := by
  have hk : Careers.storageKey t1 ≠ Careers.storageKey t2 :=
    fun he => h (Careers.storageKey_injective t1 t2 he)
  refine ⟨rfl, decimalValue_toString t1, hk, ?_, ?_, ?_, ?_⟩
  · show (JS.setItem (JS.setItem env.localStorage _ _) _ _).lookup _ = _
    rw [JS.lookup_setItem_ne _ _ _ _ hk, JS.lookup_setItem_self]
  · exact JS.lookup_setItem_self _ _ _
  · show (JS.setItem (JS.setItem env.localStorage _ _) _ _).lookup _ = _
    rw [JS.lookup_setItem_ne _ _ _ _ hk, JS.lookup_setItem_self]
  · exact JS.lookup_setItem_self _ _ _

theorem C13_storage_key_distinguishes_witness :
    Careers.storageKey 1700000000000 = "hyperchem-career-" ++ toString 1700000000000 ∧
    decimalValue (toString 1700000000000).data = 1700000000000 ∧
    Careers.storageKey 1700000000000 ≠ Careers.storageKey 1700000000001 ∧
    (AppJs.Careers.onSubmit 1700000000001 Careers.initialForm
      (AppJs.Careers.onSubmit 1700000000000 Careers.initialForm
        ⟨[], [], false⟩)).localStorage.lookup
      (Careers.storageKey 1700000000000) =
        some (JS.stringify (Careers.payload Careers.initialForm)) ∧
    (AppJs.Careers.onSubmit 1700000000001 Careers.initialForm
      (AppJs.Careers.onSubmit 1700000000000 Careers.initialForm
        ⟨[], [], false⟩)).localStorage.lookup
      (Careers.storageKey 1700000000001) =
        some (JS.stringify (Careers.payload Careers.initialForm)) ∧
    (ProV6.Careers.onSubmit 1700000000001 Careers.initialForm
      (ProV6.Careers.onSubmit 1700000000000 Careers.initialForm
        ⟨[], [], false⟩)).localStorage.lookup
      (Careers.storageKey 1700000000000) =
        some (JS.stringify (Careers.payload Careers.initialForm)) ∧
    (ProV6.Careers.onSubmit 1700000000001 Careers.initialForm
      (ProV6.Careers.onSubmit 1700000000000 Careers.initialForm
        ⟨[], [], false⟩)).localStorage.lookup
      (Careers.storageKey 1700000000001) =
        some (JS.stringify (Careers.payload Careers.initialForm)) :=
  C13_storage_key_distinguishes 1700000000000 1700000000001 (by decide)
    Careers.initialForm Careers.initialForm ⟨[], [], false⟩

/-! ## The scroll effect (claim C15) -/

/-- Distinct routes have distinct pages. -/
theorem AppJs.Page_injOn (p q : String) (hp : p ∈ AppJs.routes) (hq : q ∈ AppJs.routes)
    (h : AppJs.App.Page p = AppJs.App.Page q) : p = q := by
  rw [mem_routes_iff] at hp hq
  revert h
  rcases hp with rfl | rfl | rfl | rfl | rfl <;>
    rcases hq with rfl | rfl | rfl | rfl | rfl <;>
    decide

theorem AppJs.resolved_mem (st : AppState) : AppJs.App.resolved st ∈ AppJs.routes := by
  unfold AppJs.App.resolved
  by_cases h : AppJs.routes.contains st.path = true
  · rw [if_pos h]
    exact (contains_eq_true_iff _ _).mp h
  · rw [if_neg h]
    decide

/-- The page shown is unchanged exactly when the resolved path is unchanged. -/
theorem AppJs.shown_eq_iff (st st2 : AppState) :
    AppJs.App.shown st = AppJs.App.shown st2 ↔ AppJs.App.resolved st = AppJs.App.resolved st2 :=
  ⟨AppJs.Page_injOn _ _ (AppJs.resolved_mem st) (AppJs.resolved_mem st2),
   fun h => by unfold AppJs.App.shown; rw [h]⟩

/-- After a hash change the page shown is the page of the new hash. -/
theorem AppJs.shown_onHash (st : AppState) (hash : String) :
    AppJs.App.shown (AppJs.App.onHash st hash) = AppJs.App hash := by
  have hres : ∀ n, AppJs.App.resolved ⟨JS.or (JS.replaceFirst '#' hash) "/", n⟩ =
      AppJs.useHashRoute hash := fun _ => rfl
  unfold AppJs.App.onHash
  simp only
  split
  · rename_i heq
    unfold AppJs.App.shown AppJs.App
    have : AppJs.App.resolved st = AppJs.useHashRoute hash := by
      rw [← hres st.scrolls, heq]
    rw [this]
  · split
    · unfold AppJs.App.shown AppJs.App
      rw [hres]
    · unfold AppJs.App.shown AppJs.App
      rw [hres]

/-- One event scrolls once when the page shown changes and not at all otherwise. -/
theorem AppJs.scrolls_onHash (st : AppState) (hash : String) :
    (AppJs.App.onHash st hash).scrolls =
      st.scrolls + (if AppJs.App.shown (AppJs.App.onHash st hash) = AppJs.App.shown st
        then 0 else 1) := by
  by_cases h1 : JS.or (JS.replaceFirst '#' hash) "/" = st.path
  · have e : AppJs.App.onHash st hash = st := if_pos h1
    rw [e, if_pos rfl, Nat.add_zero]
  · by_cases h2 : AppJs.App.resolved ⟨JS.or (JS.replaceFirst '#' hash) "/", st.scrolls⟩ =
        AppJs.App.resolved st
    · have e : AppJs.App.onHash st hash =
          ⟨JS.or (JS.replaceFirst '#' hash) "/", st.scrolls⟩ := by
        show (if _ then _ else _) = _
        rw [if_neg h1, if_pos h2]
      rw [e, if_pos ((AppJs.shown_eq_iff _ _).mpr h2), Nat.add_zero]
    · have e : AppJs.App.onHash st hash =
          ⟨JS.or (JS.replaceFirst '#' hash) "/", st.scrolls + 1⟩ := by
        show (if _ then _ else _) = _
        rw [if_neg h1, if_neg h2]
      have hne : ¬ AppJs.App.shown ⟨JS.or (JS.replaceFirst '#' hash) "/", st.scrolls + 1⟩ =
          AppJs.App.shown st := fun h => h2 ((AppJs.shown_eq_iff _ _).mp h)
      rw [e, if_neg hne]

/-- Over a sequence of events the scroll count grows by the number of page changes. -/
theorem AppJs.scrolls_foldl (hs : List String) :
    ∀ (st : AppState) (prev : String), AppJs.App.shown st = AppJs.App prev →
      (hs.foldl AppJs.App.onHash st).scrolls = st.scrolls + pageChanges AppJs.App prev hs := by
  induction hs with
  | nil => intro st prev _; rfl
  | cons h hs ih =>
    intro st prev hprev
    rw [List.foldl_cons, ih (AppJs.App.onHash st h) h (AppJs.shown_onHash st h),
      AppJs.scrolls_onHash, AppJs.shown_onHash, hprev]
    simp only [pageChanges]
    omega

theorem ProV6.onHash_eq_AppJs (st : AppState) (hash : String) :
    ProV6.App.onHash st hash = AppJs.App.onHash st hash := rfl

theorem ProV6.shown_eq_AppJs (st : AppState) : ProV6.App.shown st = AppJs.App.shown st := rfl

theorem ProV6.foldl_onHash_eq_AppJs (hs : List String) (st : AppState) :
    hs.foldl ProV6.App.onHash st = hs.foldl AppJs.App.onHash st := rfl

/-- Claim C15: over any sequence of `hashchange` events handled by `App`, the scroll-to-top
effect fires exactly once for each event that changes the page shown and not at all for an
event whose new fragment resolves to the same page as before (as from `#/unknown` to
`#/other`, both Home); after the one scroll of the mount, the number of scrolls is the
number of page changes, in both files. -/
theorem C15_scroll_once_per_page_change (st : AppState) (hash h0 : String)
    (hs : List String) :
    AppJs.App.shown (AppJs.App.onHash st hash) = AppJs.App hash ∧
    (AppJs.App.onHash st hash).scrolls =
      st.scrolls + (if AppJs.App.shown (AppJs.App.onHash st hash) = AppJs.App.shown st
        then 0 else 1) ∧
    (hs.foldl AppJs.App.onHash (AppJs.App.mount h0)).scrolls =
      1 + pageChanges AppJs.App h0 hs ∧
    (AppJs.App.onHash (AppJs.App.mount "#/unknown") "#/other").scrolls =
      (AppJs.App.mount "#/unknown").scrolls ∧
    ProV6.App.shown (ProV6.App.onHash st hash) = ProV6.App hash ∧
    (ProV6.App.onHash st hash).scrolls =
      st.scrolls + (if ProV6.App.shown (ProV6.App.onHash st hash) = ProV6.App.shown st
        then 0 else 1) ∧
    (hs.foldl ProV6.App.onHash (ProV6.App.mount h0)).scrolls =
      1 + pageChanges ProV6.App h0 hs ∧
    (ProV6.App.onHash (ProV6.App.mount "#/unknown") "#/other").scrolls =
      (ProV6.App.mount "#/unknown").scrolls := by
  have hseq : (hs.foldl AppJs.App.onHash (AppJs.App.mount h0)).scrolls =
      1 + pageChanges AppJs.App h0 hs :=
    AppJs.scrolls_foldl hs (AppJs.App.mount h0) h0 rfl
  exact ⟨AppJs.shown_onHash st hash, AppJs.scrolls_onHash st hash, hseq, by decide,
    AppJs.shown_onHash st hash, AppJs.scrolls_onHash st hash, hseq, by decide⟩

/-! ## The careers form state (claim C16) -/

theorem Careers.declared_apply (form : Form) (e : Careers.Edit)
    (hform : Careers.Declared form) (he : e.reachable = true) :
    Careers.Declared (e.apply form) := by
  obtain ⟨hr, hx⟩ := hform
  cases e with
  | role v => exact ⟨(contains_eq_true_iff _ _).mp he, hx⟩
  | experience v => exact ⟨hr, (contains_eq_true_iff _ _).mp he⟩
  | name v => exact ⟨hr, hx⟩
  | email v => exact ⟨hr, hx⟩
  | phone v => exact ⟨hr, hx⟩
  | location v => exact ⟨hr, hx⟩
  | resume f => exact ⟨hr, hx⟩
  | message v => exact ⟨hr, hx⟩

theorem Careers.declared_foldl (edits : List Careers.Edit)
    (hes : ∀ e ∈ edits, e.reachable = true) :
    ∀ form, Careers.Declared form → Careers.Declared (edits.foldl Careers.Edit.apply form) := by
  induction edits with
  | nil => intro form h; exact h
  | cons e es ih =>
    intro form h
    exact ih (fun x hx => hes x (List.mem_cons_of_mem _ hx)) _
      (Careers.declared_apply form e h (hes e (List.mem_cons_self _ _)))

/-- Claim C16: the careers form state always holds a declared role and experience band: the
initial form has role `chemical_engineer` and experience `0-2`, the role list has 7 pairwise
distinct keys and the band list 4 distinct values, and every edit the form can make (text
edits, an option of either select, a file choice) keeps the role among the 7 keys and the
experience among the 4 bands, and leaves every field but the edited one unchanged; so does
every sequence of such edits from the initial form. -/
theorem C16_form_state_declared (form : Form) (e : Careers.Edit) (edits : List Careers.Edit)
    (hform : Careers.Declared form) (he : e.reachable = true)
    (hes : ∀ x ∈ edits, x.reachable = true) :
    Careers.initialForm.role = "chemical_engineer" ∧
    Careers.initialForm.experience = "0-2" ∧
    Careers.roles.map Prod.fst =
      ["chemical_engineer", "qc_chemist", "plant_supervisor", "safety_officer", "operator",
       "helper", "maintenance_staff"] ∧
    (Careers.roles.map Prod.fst).length = 7 ∧ (Careers.roles.map Prod.fst).Nodup ∧
    Careers.experienceBands = ["0-2", "3-5", "6-10", "10+"] ∧
    Careers.experienceBands.length = 4 ∧ Careers.experienceBands.Nodup ∧
    Careers.Declared Careers.initialForm ∧
    Careers.Declared (e.apply form) ∧
    (∀ g : Field, g ≠ e.field →
      Careers.fieldValue (e.apply form) g = Careers.fieldValue form g) ∧
    Careers.Declared (edits.foldl Careers.Edit.apply Careers.initialForm) := by
  have hinit : Careers.Declared Careers.initialForm := ⟨by decide, by decide⟩
  refine ⟨rfl, rfl, rfl, rfl, by decide, rfl, rfl, by decide, hinit,
    Careers.declared_apply form e hform he, ?_, Careers.declared_foldl edits hes _ hinit⟩
  intro g hg
  cases e <;> cases g <;> first | rfl | exact absurd rfl hg

theorem C16_form_state_declared_witness :
    Careers.initialForm.role = "chemical_engineer" ∧
    Careers.initialForm.experience = "0-2" ∧
    Careers.roles.map Prod.fst =
      ["chemical_engineer", "qc_chemist", "plant_supervisor", "safety_officer", "operator",
       "helper", "maintenance_staff"] ∧
    (Careers.roles.map Prod.fst).length = 7 ∧ (Careers.roles.map Prod.fst).Nodup ∧
    Careers.experienceBands = ["0-2", "3-5", "6-10", "10+"] ∧
    Careers.experienceBands.length = 4 ∧ Careers.experienceBands.Nodup ∧
    Careers.Declared Careers.initialForm ∧
    Careers.Declared ((Careers.Edit.role "qc_chemist").apply Careers.initialForm) ∧
    (∀ g : Field, g ≠ (Careers.Edit.role "qc_chemist").field →
      Careers.fieldValue ((Careers.Edit.role "qc_chemist").apply Careers.initialForm) g =
        Careers.fieldValue Careers.initialForm g) ∧
    Careers.Declared
      ([Careers.Edit.name "Jane Doe", Careers.Edit.experience "10+",
        Careers.Edit.resume (some ⟨"cv.pdf"⟩)].foldl
        Careers.Edit.apply Careers.initialForm) :=
  C16_form_state_declared Careers.initialForm (Careers.Edit.role "qc_chemist")
    [Careers.Edit.name "Jane Doe", Careers.Edit.experience "10+",
      Careers.Edit.resume (some ⟨"cv.pdf"⟩)]
    ⟨by decide, by decide⟩ (by decide) (by decide)

/-! ## Shared lemmas on `JSON.stringify` and `JSON.parse` -/

theorem Char.eq_ofNat_of_toNat (c : Char) (k : Nat) (h : c.toNat = k) : Char.ofNat k = c := by
  rw [← h]
  exact Char.ofNat_toNat c

theorem JS.hexValue_digitChar (k : Nat) (hk : k < 16) :
    JS.hexValue (Nat.digitChar k) = some k := by
  interval_cases k <;> rfl

theorem JS.parseStringBody_plain (c : Char) (cs : List Char) (h34 : c.toNat ≠ 34)
    (h92 : c.toNat ≠ 92) (h32 : ¬ c.toNat < 32) :
    JS.parseStringBody (c :: cs) = (JS.parseStringBody cs).map fun r => (c :: r.1, r.2) := by
  unfold JS.parseStringBody
  rw [JS.parseStringAux, if_neg h34, if_neg h92, if_neg h32]

theorem JS.parseStringBody_escape (e ch : Char) (rest : List Char) (he : e.toNat ≠ 117)
    (hu : JS.unescape e = some ch) :
    JS.parseStringBody (Char.ofNat 92 :: e :: rest) =
      (JS.parseStringBody rest).map fun r => (ch :: r.1, r.2) := by
  unfold JS.parseStringBody
  rw [JS.parseStringAux, if_neg (by decide), if_pos (by decide), JS.parseStringAux, if_neg he]
  simp only [hu]

theorem JS.parseStringBody_u00 (k : Nat) (hk : k < 32) (rest : List Char) :
    JS.parseStringBody (Char.ofNat 92 :: 'u' :: '0' :: '0' :: Nat.digitChar (k / 16) ::
      Nat.digitChar (k % 16) :: rest) =
      (JS.parseStringBody rest).map fun r => (Char.ofNat k :: r.1, r.2) := by
  have h1 : JS.hexValue (Nat.digitChar (k / 16)) = some (k / 16) :=
    JS.hexValue_digitChar _ (by omega)
  have h2 : JS.hexValue (Nat.digitChar (k % 16)) = some (k % 16) :=
    JS.hexValue_digitChar _ (by omega)
  have h0 : JS.hexValue '0' = some 0 := by decide
  unfold JS.parseStringBody
  rw [JS.parseStringAux, if_neg (by decide), if_pos (by decide), JS.parseStringAux,
    if_pos (by decide), JS.parseStringAux]
  simp only [h0]
  rw [JS.parseStringAux]
  simp only [h0]
  rw [JS.parseStringAux]
  simp only [h1]
  rw [JS.parseStringAux]
  simp only [h2]
  have hk2 : ((0 * 16 + 0) * 16 + k / 16) * 16 + k % 16 = k := by omega
  rw [hk2, if_neg (by omega)]

/-- Reading back one quoted character. -/
theorem JS.parseStringBody_quoteChar (c : Char) (rest : List Char) (r : List Char × List Char)
    (h : JS.parseStringBody rest = some r) :
    JS.parseStringBody (JS.quoteChar c ++ rest) = some (c :: r.1, r.2) := by
  unfold JS.quoteChar
  simp only
  split_ifs with h8 h9 h10 h12 h13 h34 h92 h32
  · rw [← Char.eq_ofNat_of_toNat c 8 h8]
    exact (JS.parseStringBody_escape 'b' (Char.ofNat 8) rest (by decide) (by decide)).trans
      (by rw [h]; rfl)
  · rw [← Char.eq_ofNat_of_toNat c 9 h9]
    exact (JS.parseStringBody_escape 't' (Char.ofNat 9) rest (by decide) (by decide)).trans
      (by rw [h]; rfl)
  · rw [← Char.eq_ofNat_of_toNat c 10 h10]
    exact (JS.parseStringBody_escape 'n' (Char.ofNat 10) rest (by decide) (by decide)).trans
      (by rw [h]; rfl)
  · rw [← Char.eq_ofNat_of_toNat c 12 h12]
    exact (JS.parseStringBody_escape 'f' (Char.ofNat 12) rest (by decide) (by decide)).trans
      (by rw [h]; rfl)
  · rw [← Char.eq_ofNat_of_toNat c 13 h13]
    exact (JS.parseStringBody_escape 'r' (Char.ofNat 13) rest (by decide) (by decide)).trans
      (by rw [h]; rfl)
  · rw [← Char.eq_ofNat_of_toNat c 34 h34]
    exact (JS.parseStringBody_escape (Char.ofNat 34) (Char.ofNat 34) rest (by decide)
      (by decide)).trans (by rw [h]; rfl)
  · rw [← Char.eq_ofNat_of_toNat c 92 h92]
    exact (JS.parseStringBody_escape (Char.ofNat 92) (Char.ofNat 92) rest (by decide)
      (by decide)).trans (by rw [h]; rfl)
  · have := JS.parseStringBody_u00 c.toNat h32 rest
    rw [Char.ofNat_toNat, h] at this
    exact this
  · exact (JS.parseStringBody_plain c rest h34 h92 h32).trans (by rw [h]; rfl)

/-- Reading back a quoted string: the characters up to the closing quote. -/
theorem JS.parseStringBody_quoted (l tail : List Char) :
    JS.parseStringBody (l.flatMap JS.quoteChar ++ Char.ofNat 34 :: tail) = some (l, tail) := by
  induction l with
  | nil =>
    show JS.parseStringAux .normal (Char.ofNat 34 :: tail) = some ([], tail)
    rw [JS.parseStringAux, if_pos (by decide)]
  | cons c cs ih =>
    rw [List.flatMap_cons, List.append_assoc]
    exact JS.parseStringBody_quoteChar c _ _ ih

theorem JS.skipWs_append_ws (w x : List Char) (hw : ∀ c ∈ w, JS.isJsonWs c = true) :
    JS.skipWs (w ++ x) = JS.skipWs x := by
  induction w with
  | nil => rfl
  | cons c cs ih =>
    have hc : JS.isJsonWs c = true := hw c (List.mem_cons_self _ _)
    have hcs : ∀ d ∈ cs, JS.isJsonWs d = true := fun d hd => hw d (List.mem_cons_of_mem _ hd)
    show List.dropWhile JS.isJsonWs (c :: (cs ++ x)) = _
    rw [List.dropWhile_cons_of_pos hc]
    exact ih hcs

theorem JS.skipWs_cons (c : Char) (x : List Char) (hc : JS.isJsonWs c = false) :
    JS.skipWs (c :: x) = c :: x := by
  show List.dropWhile JS.isJsonWs (c :: x) = _
  rw [List.dropWhile_cons_of_neg (by simp [hc])]

theorem JS.skipWs_ws_cons (w : List Char) (c : Char) (x : List Char)
    (hw : ∀ d ∈ w, JS.isJsonWs d = true) (hc : JS.isJsonWs c = false) :
    JS.skipWs (w ++ c :: x) = c :: x := by
  rw [JS.skipWs_append_ws w _ hw, JS.skipWs_cons c x hc]

theorem JS.quote_data_append (s : String) (x : List Char) :
    (JS.quote s).data ++ x =
      Char.ofNat 34 :: (s.data.flatMap JS.quoteChar ++ Char.ofNat 34 :: x) := by
  show (Char.ofNat 34 :: (s.data.flatMap JS.quoteChar ++ [Char.ofNat 34])) ++ x = _
  simp

/-- Reading back a serialised property value. -/
theorem JS.parseValue_stringifyValue (v : JS.Value) (x : List Char) :
    JS.parseValue ((JS.stringifyValue v).data ++ x) = some (v.parsed, x) ∧
    ∃ c rest, (JS.stringifyValue v).data ++ x = c :: rest ∧ JS.isJsonWs c = false := by
  cases v with
  | null =>
    refine ⟨?_, 'n', 'u' :: 'l' :: 'l' :: x, rfl, by decide⟩
    show JS.parseValue ('n' :: 'u' :: 'l' :: 'l' :: x) = _
    rw [JS.parseValue, if_neg (by decide), if_neg (by decide), if_pos (by decide)]
    rfl
  | str s =>
    refine ⟨?_, Char.ofNat 34, _, JS.quote_data_append s x, by decide⟩
    show JS.parseValue ((JS.quote s).data ++ x) = _
    rw [JS.quote_data_append, JS.parseValue, if_pos (by decide), JS.parseStringBody_quoted]
    rfl
  | file name =>
    refine ⟨?_, Char.ofNat 123, Char.ofNat 125 :: x, rfl, by decide⟩
    show JS.parseValue (Char.ofNat 123 :: Char.ofNat 125 :: x) = _
    rw [JS.parseValue, if_neg (by decide), if_pos (by decide),
      JS.skipWs_cons _ _ (by decide)]
    simp only
    rw [if_pos (by decide)]
    rfl

/-- Reading back the members of a serialised object. -/
theorem JS.parseMembers_membersText (pre mid post : List Char)
    (hpre : ∀ c ∈ pre, JS.isJsonWs c = true) (hmid : ∀ c ∈ mid, JS.isJsonWs c = true)
    (hpost : ∀ c ∈ post, JS.isJsonWs c = true) (obj : List (String × JS.Value)) :
    ∀ (fuel : Nat) (tail : List Char), obj ≠ [] → obj.length ≤ fuel →
      JS.parseMembers fuel (JS.membersText pre mid post obj ++ tail) =
        some (obj.map fun kv => (kv.1, kv.2.parsed), tail) := by
  induction obj with
  | nil => intro fuel tail h; exact absurd rfl h
  | cons kv rest ih =>
    intro fuel tail _ hfuel
    obtain ⟨k, v⟩ := kv
    cases fuel with
    | zero => simp at hfuel
    | succ fuel =>
      have hfuel2 : rest.length ≤ fuel := by simpa using hfuel
      have hY : ∃ Y, Y = JS.separator rest ++ JS.membersText pre mid post rest ++ tail :=
        ⟨_, rfl⟩
      obtain ⟨Y, hYdef⟩ := hY
      obtain ⟨hval, c0, r0, hc0, hc0ws⟩ := JS.parseValue_stringifyValue v Y
      have hshape : JS.membersText pre mid post ((k, v) :: rest) ++ tail =
          pre ++ Char.ofNat 34 :: (k.data.flatMap JS.quoteChar ++ Char.ofNat 34 ::
            Char.ofNat 58 :: (mid ++ ((JS.stringifyValue v).data ++ Y))) := by
        rw [hYdef]
        simp only [JS.membersText, List.append_assoc, List.cons_append]
        rw [JS.quote_data_append]
      rw [hshape, JS.parseMembers, JS.skipWs_ws_cons pre _ _ hpre (by decide)]
      simp only
      rw [if_pos (by decide), JS.parseStringBody_quoted]
      simp only
      rw [JS.skipWs_cons _ _ (by decide)]
      simp only
      rw [if_pos (by decide), JS.skipWs_append_ws mid _ hmid, hc0, JS.skipWs_cons c0 r0 hc0ws,
        ← hc0, hval]
      simp only
      cases rest with
      | nil =>
        have : Y = post ++ Char.ofNat 125 :: tail := by
          rw [hYdef]
          simp [JS.membersText, JS.separator]
        rw [this, JS.skipWs_ws_cons post _ _ hpost (by decide)]
        simp only
        rw [if_neg (by decide), if_pos (by decide)]
        rfl
      | cons kv2 rest2 =>
        have : Y = Char.ofNat 44 :: (JS.membersText pre mid post (kv2 :: rest2) ++ tail) := by
          rw [hYdef]
          simp [JS.separator]
        rw [this, JS.skipWs_cons _ _ (by decide)]
        simp only
        rw [if_pos (by decide), ih fuel tail (by simp) hfuel2]
        rfl

theorem intercalate_go_data (sep : String) (l : List String) (acc : String) :
    (String.intercalate.go acc sep l).data =
      acc.data ++ l.flatMap fun x => sep.data ++ x.data := by
  induction l generalizing acc with
  | nil => simp [String.intercalate.go]
  | cons x xs ih =>
    simp only [String.intercalate.go, ih, String.data_append, List.flatMap_cons,
      List.append_assoc]

theorem intercalate_cons_data (sep a : String) (l : List String) :
    (sep.intercalate (a :: l)).data = a.data ++ l.flatMap fun x => sep.data ++ x.data := by
  rw [String.intercalate, intercalate_go_data]

/-- The compact serialisation, character by character. -/
theorem JS.membersText_compact (kv : String × JS.Value) (rest : List (String × JS.Value)) :
    (JS.quote kv.1 ++ ":" ++ JS.stringifyValue kv.2).data ++
      ((rest.map fun e => JS.quote e.1 ++ ":" ++ JS.stringifyValue e.2).flatMap
        fun x => ",".data ++ x.data) ++ "\x7d".data =
      JS.membersText [] [] [] (kv :: rest) := by
  induction rest generalizing kv with
  | nil =>
    simp [JS.membersText, JS.separator, String.data_append]
  | cons kv2 rest2 ih =>
    have := ih kv2
    simp only [JS.membersText, JS.separator, String.data_append, List.map_cons,
      List.flatMap_cons, List.append_assoc, List.nil_append, List.cons_append] at this ⊢
    rw [← this]

/-- The indented serialisation, character by character. -/
theorem JS.membersText_indent2 (kv : String × JS.Value) (rest : List (String × JS.Value)) :
    "\n".data ++ ("  " ++ JS.quote kv.1 ++ ": " ++ JS.stringifyValue kv.2).data ++
      ((rest.map fun e => "  " ++ JS.quote e.1 ++ ": " ++ JS.stringifyValue e.2).flatMap
        fun x => ",\n".data ++ x.data) ++ "\n\x7d".data =
      JS.membersText "\n  ".data " ".data "\n".data (kv :: rest) := by
  induction rest generalizing kv with
  | nil =>
    simp [JS.membersText, JS.separator, String.data_append]
  | cons kv2 rest2 ih =>
    have := ih kv2
    simp only [JS.membersText, JS.separator, String.data_append, List.map_cons,
      List.flatMap_cons, List.append_assoc, List.nil_append, List.cons_append] at this ⊢
    rw [← this]

theorem JS.stringify_data (obj : List (String × JS.Value)) (h : obj ≠ []) :
    (JS.stringify obj).data = Char.ofNat 123 :: JS.membersText [] [] [] obj := by
  cases obj with
  | nil => exact absurd rfl h
  | cons kv rest =>
    rw [← JS.membersText_compact]
    simp only [JS.stringify, List.isEmpty_cons, Bool.false_eq_true, if_false, List.map_cons,
      String.data_append, intercalate_cons_data, List.append_assoc]
    rfl

theorem JS.stringifyIndent2_data (obj : List (String × JS.Value)) (h : obj ≠ []) :
    (JS.stringifyIndent2 obj).data =
      Char.ofNat 123 :: JS.membersText "\n  ".data " ".data "\n".data obj := by
  cases obj with
  | nil => exact absurd rfl h
  | cons kv rest =>
    rw [← JS.membersText_indent2]
    simp only [JS.stringifyIndent2, List.isEmpty_cons, Bool.false_eq_true, if_false,
      List.map_cons, String.data_append, intercalate_cons_data, List.append_assoc]
    rfl

theorem JS.length_membersText (pre mid post : List Char) (obj : List (String × JS.Value)) :
    obj.length ≤ (JS.membersText pre mid post obj).length := by
  induction obj with
  | nil => simp
  | cons kv rest ih =>
    simp only [JS.membersText, List.length_append, List.length_cons]
    omega

theorem JS.setProp_fresh (obj : List (String × JS.Parsed)) (k : String) (v : JS.Parsed)
    (h : k ∉ obj.map Prod.fst) : JS.setProp obj k v = obj ++ [(k, v)] := by
  unfold JS.setProp
  have : obj.any (fun e => e.1 == k) = false := by
    rw [List.any_eq_false]
    intro e he heq
    exact h (List.mem_map.mpr ⟨e, he, by simpa using heq⟩)
  rw [this]
  rfl

/-- Members with pairwise distinct keys are defined one after the other. -/
theorem JS.foldl_setProp_nodup (ms : List (String × JS.Parsed)) :
    ∀ acc : List (String × JS.Parsed), (acc.map Prod.fst ++ ms.map Prod.fst).Nodup →
      ms.foldl (fun o kv => JS.setProp o kv.1 kv.2) acc = acc ++ ms := by
  induction ms with
  | nil => intro acc _; simp
  | cons m rest ih =>
    intro acc hnd
    have hfresh : m.1 ∉ acc.map Prod.fst := by
      intro hmem
      rw [List.nodup_append] at hnd
      exact hnd.2.2 hmem (by simp)
    rw [List.foldl_cons, JS.setProp_fresh acc m.1 m.2 hfresh, ih]
    · simp
    · simpa [List.append_assoc] using hnd

/-- Reading back a serialised non-empty object with pairwise distinct keys. -/
theorem JS.parse_of_data (text : String) (pre mid post : List Char)
    (hpre : ∀ c ∈ pre, JS.isJsonWs c = true) (hmid : ∀ c ∈ mid, JS.isJsonWs c = true)
    (hpost : ∀ c ∈ post, JS.isJsonWs c = true) (obj : List (String × JS.Value))
    (hne : obj ≠ []) (hnd : (obj.map Prod.fst).Nodup)
    (htext : text.data = Char.ofNat 123 :: JS.membersText pre mid post obj) :
    JS.parse text = some (obj.map fun kv => (kv.1, kv.2.parsed)) := by
  obtain ⟨kv, rest, rfl⟩ := List.exists_cons_of_ne_nil hne
  have hfuel : (kv :: rest).length ≤ text.length := by
    have := JS.length_membersText pre mid post (kv :: rest)
    have hlen : text.length = (JS.membersText pre mid post (kv :: rest)).length + 1 := by
      show text.data.length = _
      rw [htext, List.length_cons]
    omega
  have hpm := JS.parseMembers_membersText pre mid post hpre hmid hpost (kv :: rest)
    text.length [] hne hfuel
  rw [List.append_nil] at hpm
  have hstart : JS.skipWs (JS.membersText pre mid post (kv :: rest)) =
      Char.ofNat 34 :: (kv.1.data.flatMap JS.quoteChar ++ Char.ofNat 34 ::
        (Char.ofNat 58 :: mid ++ (JS.stringifyValue kv.2).data ++
          JS.separator rest ++ JS.membersText pre mid post rest)) := by
    simp only [JS.membersText, List.append_assoc]
    rw [JS.quote_data_append, JS.skipWs_ws_cons pre _ _ hpre (by decide)]
  unfold JS.parse
  rw [htext, JS.skipWs_cons _ _ (by decide)]
  simp only
  rw [if_pos (by decide), hstart]
  simp only
  rw [if_neg (by decide), hpm]
  simp only
  rw [if_pos (show JS.skipWs [] = [] from rfl), JS.foldl_setProp_nodup]
  · rfl
  · simpa [List.map_map, Function.comp] using hnd

theorem Careers.payload_keys_nodup (form : Form) :
    ((Careers.payload form).map Prod.fst).Nodup := by
  show ["name", "email", "phone", "location", "role", "experience", "resume", "message",
    "resumeName"].Nodup
  decide

/-- Both serialisations of a careers payload read back as the payload. -/
theorem Careers.parse_payload (form : Form) :
    JS.parse (JS.stringifyIndent2 (Careers.payload form)) =
      some ((Careers.payload form).map fun kv => (kv.1, kv.2.parsed)) ∧
    JS.parse (JS.stringify (Careers.payload form)) =
      some ((Careers.payload form).map fun kv => (kv.1, kv.2.parsed)) := by
  have hne : Careers.payload form ≠ [] := by simp [Careers.payload]
  constructor
  · exact JS.parse_of_data _ "\n  ".data " ".data "\n".data (by decide) (by decide) (by decide)
      _ hne (Careers.payload_keys_nodup form) (JS.stringifyIndent2_data _ hne)
  · exact JS.parse_of_data _ [] [] [] (by simp) (by simp) (by simp)
      _ hne (Careers.payload_keys_nodup form) (JS.stringify_data _ hne)

/-! ## The snapshot round trip (claim C11) -/

/-- Claim C11: the serialised careers payload round-trips: for every form with no resume
attached, parsing the downloaded pretty-printed JSON text yields an object whose name,
email, phone, location, role, experience and message are the submitted values and whose
`resume` and `resumeName` are `null`; parsing the compact JSON stored in local storage
yields the same object; these two texts are what `onSubmit` downloads and stores, in both
files. -/
theorem C11_payload_round_trips (form : Form) (hres : form.resume = none) (now : Nat)
    (env : Env) :
    JS.parse (JS.stringifyIndent2 (Careers.payload form)) =
      some [("name", .str form.name), ("email", .str form.email), ("phone", .str form.phone),
        ("location", .str form.location), ("role", .str form.role),
        ("experience", .str form.experience), ("resume", .null),
        ("message", .str form.message), ("resumeName", .null)] ∧
    JS.parse (JS.stringify (Careers.payload form)) =
      JS.parse (JS.stringifyIndent2 (Careers.payload form)) ∧
    (AppJs.Careers.onSubmit now form env).downloads.getLast? =
      some (AppJs.Careers.downloadName form.name, JS.stringifyIndent2 (Careers.payload form)) ∧
    (AppJs.Careers.onSubmit now form env).localStorage.lookup (Careers.storageKey now) =
      some (JS.stringify (Careers.payload form)) ∧
    (ProV6.Careers.onSubmit now form env).downloads.getLast? =
      some (ProV6.Careers.downloadName form.name, JS.stringifyIndent2 (Careers.payload form)) ∧
    (ProV6.Careers.onSubmit now form env).localStorage.lookup (Careers.storageKey now) =
      some (JS.stringify (Careers.payload form)) := by
  obtain ⟨h1, h2⟩ := Careers.parse_payload form
  refine ⟨?_, ?_, ?_, ?_, ?_, ?_⟩
  · rw [h1]
    simp [Careers.payload, Careers.resumeName, hres, JS.Value.parsed]
  · rw [h1, h2]
  · simp [AppJs.Careers.onSubmit]
  · simp [AppJs.Careers.onSubmit, JS.setItem, List.lookup]
  · simp [ProV6.Careers.onSubmit]
  · simp [ProV6.Careers.onSubmit, JS.setItem, List.lookup]

theorem C11_payload_round_trips_witness :
    JS.parse (JS.stringifyIndent2 (Careers.payload
      ⟨"Jane Doe", "j@x.com", "555", "", "chemical_engineer", "0-2", none, ""⟩)) =
      some [("name", .str "Jane Doe"), ("email", .str "j@x.com"), ("phone", .str "555"),
        ("location", .str ""), ("role", .str "chemical_engineer"),
        ("experience", .str "0-2"), ("resume", .null),
        ("message", .str ""), ("resumeName", .null)] ∧
    JS.parse (JS.stringify (Careers.payload
      ⟨"Jane Doe", "j@x.com", "555", "", "chemical_engineer", "0-2", none, ""⟩)) =
      JS.parse (JS.stringifyIndent2 (Careers.payload
        ⟨"Jane Doe", "j@x.com", "555", "", "chemical_engineer", "0-2", none, ""⟩)) ∧
    (AppJs.Careers.onSubmit 1700000000000
      ⟨"Jane Doe", "j@x.com", "555", "", "chemical_engineer", "0-2", none, ""⟩
      ⟨[], [], false⟩).downloads.getLast? =
      some (AppJs.Careers.downloadName "Jane Doe", JS.stringifyIndent2 (Careers.payload
        ⟨"Jane Doe", "j@x.com", "555", "", "chemical_engineer", "0-2", none, ""⟩)) ∧
    (AppJs.Careers.onSubmit 1700000000000
      ⟨"Jane Doe", "j@x.com", "555", "", "chemical_engineer", "0-2", none, ""⟩
      ⟨[], [], false⟩).localStorage.lookup (Careers.storageKey 1700000000000) =
      some (JS.stringify (Careers.payload
        ⟨"Jane Doe", "j@x.com", "555", "", "chemical_engineer", "0-2", none, ""⟩)) ∧
    (ProV6.Careers.onSubmit 1700000000000
      ⟨"Jane Doe", "j@x.com", "555", "", "chemical_engineer", "0-2", none, ""⟩
      ⟨[], [], false⟩).downloads.getLast? =
      some (ProV6.Careers.downloadName "Jane Doe", JS.stringifyIndent2 (Careers.payload
        ⟨"Jane Doe", "j@x.com", "555", "", "chemical_engineer", "0-2", none, ""⟩)) ∧
    (ProV6.Careers.onSubmit 1700000000000
      ⟨"Jane Doe", "j@x.com", "555", "", "chemical_engineer", "0-2", none, ""⟩
      ⟨[], [], false⟩).localStorage.lookup (Careers.storageKey 1700000000000) =
      some (JS.stringify (Careers.payload
        ⟨"Jane Doe", "j@x.com", "555", "", "chemical_engineer", "0-2", none, ""⟩)) :=
  C11_payload_round_trips
    ⟨"Jane Doe", "j@x.com", "555", "", "chemical_engineer", "0-2", none, ""⟩ rfl
    1700000000000 ⟨[], [], false⟩

/-! ## Shared lemmas on `encodeURIComponent` and percent-decoding -/

theorem JS.hexValue_hexUpper (d : Nat) (hd : d < 16) : JS.hexValue (JS.hexUpper d) = some d := by
  interval_cases d <;> rfl

theorem Mailto.items_percentByte (b : Nat) (hb : b < 256) (rest : List Char) :
    Mailto.items .start (JS.percentByte b ++ rest) =
      (Mailto.items .start rest).map fun r => Mailto.Item.byte b :: r := by
  have h1 : JS.hexValue (JS.hexUpper (b / 16)) = some (b / 16) :=
    JS.hexValue_hexUpper _ (by omega)
  have h2 : JS.hexValue (JS.hexUpper (b % 16)) = some (b % 16) :=
    JS.hexValue_hexUpper _ (by omega)
  show Mailto.items .start ('%' :: JS.hexUpper (b / 16) :: JS.hexUpper (b % 16) :: rest) = _
  rw [Mailto.items, if_pos rfl, Mailto.items]
  simp only [h1]
  rw [Mailto.items]
  simp only [h2]
  have : b / 16 * 16 + b % 16 = b := by omega
  rw [this]

theorem Mailto.items_lit (c : Char) (hc : c ≠ '%') (rest : List Char) :
    Mailto.items .start (c :: rest) =
      (Mailto.items .start rest).map fun r => Mailto.Item.lit c :: r := by
  rw [Mailto.items, if_neg hc]

theorem JS.unreserved_ne_percent (c : Char) (h : JS.isUriUnreserved c = true) : c ≠ '%' := by
  rintro rfl
  exact absurd h (by decide)

theorem JS.utf8Bytes_lt (n : Nat) (hn : n < 1114112) : ∀ b ∈ JS.utf8Bytes n, b < 256 := by
  intro b hb
  unfold JS.utf8Bytes at hb
  split_ifs at hb <;> simp at hb <;> omega

theorem Mailto.items_bytes (bs : List Nat) (hbs : ∀ b ∈ bs, b < 256) (rest : List Char) :
    Mailto.items .start (bs.flatMap JS.percentByte ++ rest) =
      (Mailto.items .start rest).map fun r => bs.map Mailto.Item.byte ++ r := by
  induction bs with
  | nil => simp
  | cons b bs ih =>
    have hb : b < 256 := hbs b (List.mem_cons_self _ _)
    have hrest : ∀ x ∈ bs, x < 256 := fun x hx => hbs x (List.mem_cons_of_mem _ hx)
    rw [List.flatMap_cons, List.append_assoc, Mailto.items_percentByte b hb, ih hrest]
    cases Mailto.items .start rest <;> simp

theorem Char.toNat_lt (c : Char) : c.toNat < 1114112 := by
  have h := c.valid
  show c.val.toNat < 1114112
  rcases h with h | ⟨_, h⟩
  · have : c.val.toNat < 55296 := h
    omega
  · exact h

theorem Char.toNat_not_surrogate (c : Char) : ¬ (55296 ≤ c.toNat ∧ c.toNat ≤ 57343) := by
  have h := c.valid
  show ¬ (55296 ≤ c.val.toNat ∧ c.val.toNat ≤ 57343)
  rcases h with h | ⟨h, _⟩
  · have : c.val.toNat < 55296 := h
    omega
  · have : 57343 < c.val.toNat := h
    omega

/-- The pieces a character is decoded from. -/
theorem Mailto.items_encode (l : List Char) (rest : List Char) :
    Mailto.items .start
      ((l.flatMap fun c =>
        if JS.isUriUnreserved c then [c] else (JS.utf8Bytes c.toNat).flatMap JS.percentByte)
        ++ rest) =
      (Mailto.items .start rest).map fun r =>
        (l.flatMap fun c =>
          if JS.isUriUnreserved c then [Mailto.Item.lit c]
          else (JS.utf8Bytes c.toNat).map Mailto.Item.byte) ++ r := by
  induction l with
  | nil => simp
  | cons c cs ih =>
    rw [List.flatMap_cons, List.flatMap_cons, List.append_assoc]
    by_cases hc : JS.isUriUnreserved c = true
    · rw [if_pos hc, if_pos hc, List.singleton_append,
        Mailto.items_lit c (JS.unreserved_ne_percent c hc), ih]
      cases Mailto.items .start rest <;> simp
    · rw [if_neg hc, if_neg hc,
        Mailto.items_bytes _ (JS.utf8Bytes_lt _ (Char.toNat_lt c)), ih]
      cases Mailto.items .start rest <;> simp

/-- Reading the UTF-8 bytes of a code point gives the code point back. -/
theorem Mailto.utf8_bytes (n : Nat) (hn : n < 1114112) (hs : ¬ (55296 ≤ n ∧ n ≤ 57343))
    (rest : List Mailto.Item) :
    Mailto.utf8 0 0 0 ((JS.utf8Bytes n).map Mailto.Item.byte ++ rest) =
      (Mailto.utf8 0 0 0 rest).map fun r => Char.ofNat n :: r := by
  unfold JS.utf8Bytes
  split_ifs with h1 h2 h3
  · show Mailto.utf8 0 0 0 (Mailto.Item.byte n :: rest) = _
    rw [Mailto.utf8, if_pos h1]
  · show Mailto.utf8 0 0 0 (Mailto.Item.byte (192 + n / 64) ::
      Mailto.Item.byte (128 + n % 64) :: rest) = _
    rw [Mailto.utf8, if_neg (by omega), if_pos (by omega), Mailto.utf8, if_pos (by omega)]
    have : (192 + n / 64 - 192) * 64 + (128 + n % 64 - 128) = n := by omega
    rw [this, if_pos ⟨by omega, hn, hs⟩]
  · show Mailto.utf8 0 0 0 (Mailto.Item.byte (224 + n / 4096) ::
      Mailto.Item.byte (128 + n / 64 % 64) :: Mailto.Item.byte (128 + n % 64) :: rest) = _
    rw [Mailto.utf8, if_neg (by omega), if_neg (by omega), if_pos (by omega), Mailto.utf8,
      if_pos (by omega)]
    rw [Mailto.utf8, if_pos (by omega)]
    have : ((224 + n / 4096 - 224) * 64 + (128 + n / 64 % 64 - 128)) * 64 +
        (128 + n % 64 - 128) = n := by omega
    rw [this, if_pos ⟨by omega, hn, hs⟩]
  · show Mailto.utf8 0 0 0 (Mailto.Item.byte (240 + n / 262144) ::
      Mailto.Item.byte (128 + n / 4096 % 64) :: Mailto.Item.byte (128 + n / 64 % 64) ::
      Mailto.Item.byte (128 + n % 64) :: rest) = _
    rw [Mailto.utf8, if_neg (by omega), if_neg (by omega), if_neg (by omega),
      if_pos (by omega), Mailto.utf8, if_pos (by omega)]
    rw [Mailto.utf8, if_pos (by omega)]
    rw [Mailto.utf8, if_pos (by omega)]
    have : (((240 + n / 262144 - 240) * 64 + (128 + n / 4096 % 64 - 128)) * 64 +
        (128 + n / 64 % 64 - 128)) * 64 + (128 + n % 64 - 128) = n := by omega
    rw [this, if_pos ⟨by omega, hn, hs⟩]

theorem Mailto.utf8_encode (l : List Char) :
    Mailto.utf8 0 0 0
      (l.flatMap fun c =>
        if JS.isUriUnreserved c then [Mailto.Item.lit c]
        else (JS.utf8Bytes c.toNat).map Mailto.Item.byte) = some l := by
  induction l with
  | nil => rfl
  | cons c cs ih =>
    rw [List.flatMap_cons]
    by_cases hc : JS.isUriUnreserved c = true
    · rw [if_pos hc, List.singleton_append, Mailto.utf8, ih]
      rfl
    · rw [if_neg hc, Mailto.utf8_bytes _ (Char.toNat_lt c) (Char.toNat_not_surrogate c), ih,
        Char.ofNat_toNat]
      rfl

/-- Percent-decoding undoes `encodeURIComponent`. -/
theorem Mailto.decode_encodeURIComponent (s : String) :
    Mailto.decode (JS.encodeURIComponent s).data = some s := by
  have h := Mailto.items_encode s.data []
  rw [List.append_nil] at h
  unfold Mailto.decode
  show (match Mailto.items .start (s.data.flatMap _) with
    | none => none
    | some its => (Mailto.utf8 0 0 0 its).map String.mk) = some s
  rw [h]
  show (Mailto.utf8 0 0 0 ((s.data.flatMap _) ++ [])).map String.mk = some s
  rw [List.append_nil, Mailto.utf8_encode]
  rfl

theorem takeWhile_append_cons_stop (p : Char → Bool) (l : List Char) (c : Char) (r : List Char)
    (hl : ∀ a ∈ l, p a = true) (hc : p c = false) : (l ++ c :: r).takeWhile p = l := by
  induction l with
  | nil => simp [List.takeWhile, hc]
  | cons a as ih =>
    have ha : p a = true := hl a (List.mem_cons_self _ _)
    rw [List.cons_append, List.takeWhile_cons_of_pos ha,
      ih (fun x hx => hl x (List.mem_cons_of_mem _ hx))]

theorem dropWhile_append_cons_stop (p : Char → Bool) (l : List Char) (c : Char) (r : List Char)
    (hl : ∀ a ∈ l, p a = true) (hc : p c = false) : (l ++ c :: r).dropWhile p = c :: r := by
  induction l with
  | nil => simp [List.dropWhile, hc]
  | cons a as ih =>
    have ha : p a = true := hl a (List.mem_cons_self _ _)
    rw [List.cons_append, List.dropWhile_cons_of_pos ha,
      ih (fun x hx => hl x (List.mem_cons_of_mem _ hx))]

theorem Html.splitAt_of_not_mem (sep : Char) (l : List Char) (h : sep ∉ l) :
    Html.splitAt sep l = [l] := by
  induction l with
  | nil => rfl
  | cons c cs ih =>
    have hc : c ≠ sep := fun e => h (e ▸ List.mem_cons_self _ _)
    have hcs : sep ∉ cs := fun hm => h (List.mem_cons_of_mem _ hm)
    rw [Html.splitAt, if_neg hc, ih hcs]

theorem Html.splitAt_append_sep (sep : Char) (l r : List Char) (h : sep ∉ l) :
    Html.splitAt sep (l ++ sep :: r) = l :: Html.splitAt sep r := by
  induction l with
  | nil =>
    show Html.splitAt sep (sep :: r) = _
    rw [Html.splitAt, if_pos rfl]
  | cons c cs ih =>
    have hc : c ≠ sep := fun e => h (e ▸ List.mem_cons_self _ _)
    have hcs : sep ∉ cs := fun hm => h (List.mem_cons_of_mem _ hm)
    rw [List.cons_append, Html.splitAt, if_neg hc, ih hcs]

theorem JS.hexUpper_ne_amp (d : Nat) (hd : d < 16) : JS.hexUpper d ≠ '&' := by
  interval_cases d <;> decide

/-- The output of `encodeURIComponent` holds no `&`. -/
theorem JS.amp_not_mem_encodeURIComponent (s : String) :
    '&' ∉ (JS.encodeURIComponent s).data := by
  intro hmem
  obtain ⟨x, -, hx⟩ := List.mem_flatMap.mp hmem
  by_cases hu : JS.isUriUnreserved x = true
  · rw [if_pos hu, List.mem_singleton] at hx
    subst hx
    exact absurd hu (by decide)
  · rw [if_neg hu] at hx
    obtain ⟨b, hb, hc⟩ := List.mem_flatMap.mp hx
    have hb256 := JS.utf8Bytes_lt _ (Char.toNat_lt x) b hb
    simp only [JS.percentByte, List.mem_cons, List.mem_singleton, List.not_mem_nil,
      or_false] at hc
    rcases hc with hc | hc | hc
    · exact absurd hc (by decide)
    · exact JS.hexUpper_ne_amp _ (by omega) hc.symm
    · exact JS.hexUpper_ne_amp _ (by omega) hc.symm

/-- The mail composer reads `submit`'s URL as the fixed address, the fixed subject and the
body text. -/
theorem AppJs.read_submit (c : ContactMessage) :
    Mailto.read (AppJs.Contact.submit c) =
      some ⟨"hello@hyperchem.example", "Website inquiry", AppJs.Contact.bodyText c⟩ := by
  have hdata : (AppJs.Contact.submit c).data =
      "mailto:".data ++ ("hello@hyperchem.example".data ++ '?' ::
        ("subject=Website inquiry".data ++ '&' ::
          ("body".data ++ '=' :: (JS.encodeURIComponent (AppJs.Contact.bodyText c)).data))) := by
    simp [AppJs.Contact.submit, String.data_append]
  have hamp : '&' ∉ "body".data ++ '=' ::
      (JS.encodeURIComponent (AppJs.Contact.bodyText c)).data := by
    intro hm
    rcases List.mem_append.mp hm with hm | hm
    · exact absurd hm (by decide)
    · rcases List.mem_cons.mp hm with hm | hm
      · exact absurd hm (by decide)
      · exact JS.amp_not_mem_encodeURIComponent _ hm
  have hfields : Mailto.fields ("subject=Website inquiry".data ++ '&' ::
      ("body".data ++ '=' :: (JS.encodeURIComponent (AppJs.Contact.bodyText c)).data)) =
      [("subject".data, "Website inquiry".data),
       ("body".data, (JS.encodeURIComponent (AppJs.Contact.bodyText c)).data)] := by
    unfold Mailto.fields
    rw [Html.splitAt_append_sep _ _ _ (by decide), Html.splitAt_of_not_mem _ _ hamp]
    simp only [List.map_cons, List.map_nil]
    rw [takeWhile_append_cons_stop _ "body".data '=' _ (by decide) (by decide),
      dropWhile_append_cons_stop _ "body".data '=' _ (by decide) (by decide)]
    rfl
  unfold Mailto.read
  rw [hdata]
  have hpre : "mailto:".data.isPrefixOf ("mailto:".data ++ ("hello@hyperchem.example".data ++
      '?' :: ("subject=Website inquiry".data ++ '&' :: ("body".data ++ '=' ::
        (JS.encodeURIComponent (AppJs.Contact.bodyText c)).data)))) = true := by
    rfl
  rw [if_pos hpre]
  have hdrop : ("mailto:".data ++ ("hello@hyperchem.example".data ++
      '?' :: ("subject=Website inquiry".data ++ '&' :: ("body".data ++ '=' ::
        (JS.encodeURIComponent (AppJs.Contact.bodyText c)).data)))).drop 7 =
      "hello@hyperchem.example".data ++
      '?' :: ("subject=Website inquiry".data ++ '&' :: ("body".data ++ '=' ::
        (JS.encodeURIComponent (AppJs.Contact.bodyText c)).data)) := rfl
  simp only [hdrop]
  rw [takeWhile_append_cons_stop _ "hello@hyperchem.example".data '?' _ (by decide) (by decide),
    dropWhile_append_cons_stop _ "hello@hyperchem.example".data '?' _ (by decide) (by decide)]
  simp only [List.drop_succ_cons, List.drop_zero, hfields]
  have h1 : Mailto.decode "hello@hyperchem.example".data = some "hello@hyperchem.example" := by
    decide
  have h2 : Mailto.decode
      ((List.lookup "subject".data [("subject".data, "Website inquiry".data),
        ("body".data, (JS.encodeURIComponent (AppJs.Contact.bodyText c)).data)]).getD []) =
      some "Website inquiry" := by
    have : List.lookup "subject".data [("subject".data, "Website inquiry".data),
        ("body".data, (JS.encodeURIComponent (AppJs.Contact.bodyText c)).data)] =
        some "Website inquiry".data := by
      rfl
    rw [this]
    decide
  have h3 : Mailto.decode
      ((List.lookup "body".data [("subject".data, "Website inquiry".data),
        ("body".data, (JS.encodeURIComponent (AppJs.Contact.bodyText c)).data)]).getD []) =
      some (AppJs.Contact.bodyText c) := by
    have : List.lookup "body".data [("subject".data, "Website inquiry".data),
        ("body".data, (JS.encodeURIComponent (AppJs.Contact.bodyText c)).data)] =
        some (JS.encodeURIComponent (AppJs.Contact.bodyText c)).data := by
      rfl
    rw [this]
    exact Mailto.decode_encodeURIComponent _
  rw [h1, h2, h3]

theorem AppJs.Contact.contact_controls_valid (c : ContactMessage)
    (hn : Html.inputValue "text" c.name ≠ "")
    (he : Html.validEmail (Html.inputValue "email" c.email) = true)
    (hm : c.message ≠ "") :
    ∀ x ∈ AppJs.Contact.controls c, Html.Control.invalid x = false := by
  have hne : Html.inputValue "email" c.email ≠ "" := by
    intro h0
    rw [h0] at he
    exact absurd he (by decide)
  intro x hx
  simp only [AppJs.Contact.controls, List.mem_cons, List.mem_singleton, List.not_mem_nil,
    or_false] at hx
  rcases hx with rfl | rfl | rfl | rfl <;>
    simp [Html.Control.invalid, hn, hm, he, hne]

/-! ## The contact form (claim C14) -/

/-- Claim C14 as stated fails: a contact message with non-empty name, email and message whose
email is `"abc"` produces no mail request. The Email input is declared `type="email"`, so the
value fails the address check and `submit` does not run. -/
theorem C14_counterexample :
    ("Jane Doe" ≠ "" ∧ "abc" ≠ "" ∧ "Hello" ≠ "") ∧
    AppJs.Contact.send ⟨"Jane Doe", "abc", "", "Hello"⟩ = ⟨[.email], none⟩ := by
  decide

/-- Claim C14, amended: for every contact message whose name and message are non-empty and
whose email is a valid e-mail address (the check of the `type="email"` input), phone being
optional, submitting the contact form of App.js produces a `mailto:` request which the mail
composer reads with the fixed recipient `hello@hyperchem.example`, the fixed subject
`Website inquiry`, and as body the template `Name: <name>`, `Email: <email>`,
`Phone: <phone>`, an empty line, `<message>`, holding name, email and message verbatim. -/
theorem C14_contact_mailto (c : ContactMessage)
    (hn : Html.inputValue "text" c.name ≠ "")
    (he : Html.validEmail (Html.inputValue "email" c.email) = true)
    (hm : c.message ≠ "") :
    AppJs.Contact.send c = ⟨[], some (AppJs.Contact.submit c)⟩ ∧
    Mailto.read (AppJs.Contact.submit c) =
      some ⟨"hello@hyperchem.example", "Website inquiry",
        "Name: " ++ c.name ++ "\nEmail: " ++ c.email ++ "\nPhone: " ++ c.phone ++ "\n\n" ++
          c.message⟩ ∧
    c.name.data <:+: (AppJs.Contact.bodyText c).data ∧
    c.email.data <:+: (AppJs.Contact.bodyText c).data ∧
    c.message.data <:+: (AppJs.Contact.bodyText c).data := by
  have hv := AppJs.Contact.contact_controls_valid c hn he hm
  have hnil : ((AppJs.Contact.controls c).filter Html.Control.invalid).map Control.field = [] := by
    rw [List.map_eq_nil_iff, List.filter_eq_nil_iff]
    intro x hx
    simp [hv x hx]
  refine ⟨?_, AppJs.read_submit c, ?_, ?_, ?_⟩
  · unfold AppJs.Contact.send
    rw [hnil]
  · exact ⟨"Name: ".data,
      ("\nEmail: " ++ c.email ++ "\nPhone: " ++ c.phone ++ "\n\n" ++ c.message).data,
      by simp [AppJs.Contact.bodyText, String.data_append]⟩
  · exact ⟨("Name: " ++ c.name ++ "\nEmail: ").data,
      ("\nPhone: " ++ c.phone ++ "\n\n" ++ c.message).data,
      by simp [AppJs.Contact.bodyText, String.data_append]⟩
  · exact ⟨("Name: " ++ c.name ++ "\nEmail: " ++ c.email ++ "\nPhone: " ++ c.phone ++
      "\n\n").data, [], by simp [AppJs.Contact.bodyText, String.data_append]⟩

theorem C14_contact_mailto_witness :
    AppJs.Contact.send ⟨"Jane Doe", "j@x.com", "", "Hello"⟩ =
      ⟨[], some (AppJs.Contact.submit ⟨"Jane Doe", "j@x.com", "", "Hello"⟩)⟩ ∧
    Mailto.read (AppJs.Contact.submit ⟨"Jane Doe", "j@x.com", "", "Hello"⟩) =
      some ⟨"hello@hyperchem.example", "Website inquiry",
        "Name: " ++ "Jane Doe" ++ "\nEmail: " ++ "j@x.com" ++ "\nPhone: " ++ "" ++ "\n\n" ++
          "Hello"⟩ ∧
    "Jane Doe".data <:+: (AppJs.Contact.bodyText ⟨"Jane Doe", "j@x.com", "", "Hello"⟩).data ∧
    "j@x.com".data <:+: (AppJs.Contact.bodyText ⟨"Jane Doe", "j@x.com", "", "Hello"⟩).data ∧
    "Hello".data <:+: (AppJs.Contact.bodyText ⟨"Jane Doe", "j@x.com", "", "Hello"⟩).data :=
  C14_contact_mailto ⟨"Jane Doe", "j@x.com", "", "Hello"⟩ (by decide) (by decide) (by decide)

/-! ## Idempotence of route resolution (claim C21) -/

/-- A declared path resolves to itself: it holds no `#` and is not empty. -/
theorem AppJs.useHashRoute_of_mem (p : String) (hp : p ∈ AppJs.routes) :
    AppJs.useHashRoute p = p := by
  rw [mem_routes_iff] at hp
  rcases hp with rfl | rfl | rfl | rfl | rfl <;> decide

/-- Claim C21: route resolution is idempotent: for every string `s`, resolving the already
resolved path again returns it unchanged, because the resolved path is one of the declared
paths, each of which holds no `#` and is non-empty, in both files. -/
theorem C21_resolution_idempotent (s : String) :
    AppJs.useHashRoute (AppJs.useHashRoute s) = AppJs.useHashRoute s ∧
    ProV6.useHashRoute (ProV6.useHashRoute s) = ProV6.useHashRoute s ∧
    declaredPaths.all (fun p => !p.data.contains '#' && p != "") = true := by
  have h := AppJs.useHashRoute_of_mem _ (AppJs.useHashRoute_mem s)
  exact ⟨h, h, by decide⟩

/-! ## The mobile menu labels (claim C22) -/

/-- Claim C22: the redesigned mobile menu computes the same labels as the explicit table of
the original: for every declared path `p`, the label of HyperChem_ProV6.jsx (`Home` for
`/`, otherwise `p` without its leading slash and with a lower-case first letter upper-cased)
is the label App.js lists for `p`; the two menus have the same links with the labels Home,
Products, Careers, About, Contact. -/
theorem C22_mobile_menu_labels (p : String) (hp : p ∈ declaredPaths) :
    AppJs.MobileMenu.entries.lookup p = some (ProV6.MobileMenu.label p) ∧
    ProV6.MobileMenu.entries = AppJs.MobileMenu.entries ∧
    ProV6.MobileMenu.paths = declaredPaths ∧
    AppJs.MobileMenu.entries.map Prod.fst = declaredPaths ∧
    declaredPaths.map ProV6.MobileMenu.label =
      ["Home", "Products", "Careers", "About", "Contact"] ∧
    AppJs.MobileMenu.entries.map Prod.snd =
      ["Home", "Products", "Careers", "About", "Contact"] := by
  have hp2 : p ∈ AppJs.routes := hp
  rw [mem_routes_iff] at hp2
  rcases hp2 with rfl | rfl | rfl | rfl | rfl <;> decide

theorem C22_mobile_menu_labels_witness :
    AppJs.MobileMenu.entries.lookup "/careers" = some (ProV6.MobileMenu.label "/careers") ∧
    ProV6.MobileMenu.entries = AppJs.MobileMenu.entries ∧
    ProV6.MobileMenu.paths = declaredPaths ∧
    AppJs.MobileMenu.entries.map Prod.fst = declaredPaths ∧
    declaredPaths.map ProV6.MobileMenu.label =
      ["Home", "Products", "Careers", "About", "Contact"] ∧
    AppJs.MobileMenu.entries.map Prod.snd =
      ["Home", "Products", "Careers", "About", "Contact"] :=
  C22_mobile_menu_labels "/careers" (by decide)

end HyperChem
